import Mathlib

/-!
Verification development for the package-synchronization tool
(`.github/scripts/sync_packages.py`).

The script is embedded shallowly: strings are modelled as `List Char`,
the filesystem and the version-control collaborator are modelled as
oracle functions bundled in `Oracles`, and the side effects of the
materialization pass are recorded as an explicit `Event` trace.
-/

namespace SyncPackages

/-- Strings of the embedded program are plain character lists. -/
abbrev Str := List Char

/-- Convert a Lean string literal to the character-list representation. -/
def strOf (s : String) : Str := s.data

/-- Characters stripped by Python `str.strip()` (ASCII whitespace). -/
def isSpace (c : Char) : Bool :=
  c = ' ' || c = '\t' || c = '\n' || c = '\r' || c = '\x0b' || c = '\x0c'

/-- Python `str.lstrip()`. -/
def lstripWs (l : Str) : Str := l.dropWhile isSpace

/-- Drop the longest run of characters satisfying `p` from the end. -/
def rdrop (p : Char → Bool) (l : Str) : Str := (l.reverse.dropWhile p).reverse

/-- Python `str.rstrip()`. -/
def rstripWs (l : Str) : Str := rdrop isSpace l

/-- Python `str.strip()`. -/
def pyStrip (l : Str) : Str := rstripWs (lstripWs l)

/-- Python `str.rstrip(";")`: remove every trailing semicolon. -/
def rstripSemi (l : Str) : Str := rdrop (fun c => c = ';') l

/-- Python `str.split(sep)` for a one-character separator: split on every
occurrence, keeping empty fields; the result is always nonempty. -/
def splitOnChar (sep : Char) : Str → List Str
  | [] => [[]]
  | c :: cs =>
    match splitOnChar sep cs with
    | [] => [[]]
    | h :: t => if c = sep then [] :: h :: t else (c :: h) :: t

/-- Python `str.split("=", 1)` restricted to its use sites: the part before
the first `=` and the part after it. -/
def splitKV : Str → Str × Str
  | [] => ([], [])
  | c :: cs =>
    if c = '=' then ([], cs)
    else
      let r := splitKV cs
      (c :: r.1, r.2)

/-- Python `os.path.basename` on POSIX: everything after the last slash. -/
def basename (p : Str) : Str :=
  (p.reverse.takeWhile (fun c => c ≠ '/')).reverse

/-- Python `os.path.join(a, b)` on POSIX, for two components. -/
def joinPath (a b : Str) : Str :=
  if b.head? = some '/' then b
  else if a = [] ∨ a.getLast? = some '/' then a ++ b
  else a ++ '/' :: b

/-- Python `str.replace(".git", "")`: remove every (left-to-right,
non-overlapping) occurrence of the substring `.git`. -/
def removeDotGit : Str → Str
  | '.' :: 'g' :: 'i' :: 't' :: rest => removeDotGit rest
  | c :: rest => c :: removeDotGit rest
  | [] => []

/-- Decimal digit run to a number; `none` if empty or a non-digit occurs. -/
def digitsToNat : Str → Option Nat
  | [] => none
  | l =>
    l.foldl
      (fun acc c =>
        match acc with
        | none => none
        | some n => if c.isDigit then some (n * 10 + (c.toNat - 48)) else none)
      (some 0)

/-- Models Python `int()` on already-trimmed text: optional surrounding
whitespace, an optional sign, then decimal digits. -/
def pyInt (l : Str) : Option Int :=
  match pyStrip l with
  | '+' :: ds => (digitsToNat ds).map (fun n => (n : Int))
  | '-' :: ds => (digitsToNat ds).map (fun n => -(n : Int))
  | ds => (digitsToNat ds).map (fun n => (n : Int))

/-- Python truthiness of an optional string (`None` and `""` are falsy). -/
def oTruthy : Option Str → Bool
  | none => false
  | some s => !s.isEmpty

/-- Accumulator for the field loop of `parse_line` (lines 71-87 of the
source): the four optional fields plus whether the invalid-depth
diagnostic was printed. -/
structure Fields where
  subDir : Option Str
  targetPath : Option Str
  depth : Option Int
  currentHash : Option Str
  warn : Bool
deriving Repr, DecidableEq

/-- Initial state of the field loop: no optional field seen, no
diagnostic printed. -/
def fieldsInit : Fields := ⟨none, none, none, none, false⟩

/-- One iteration of the field loop of `parse_line`: a `key=value` field
updates `path`/`depth`/`hash` (an unrecognized key is ignored, an invalid
depth prints a diagnostic and resets depth to `None`); a field without
`=` is taken positionally as the subdirectory. -/
def procPart (st : Fields) (part0 : Str) : Fields :=
  let part := pyStrip part0
  if part.contains '=' then
    let kv := splitKV part
    let k := pyStrip kv.1
    if k = strOf "path" then { st with targetPath := some (pyStrip kv.2) }
    else if k = strOf "depth" then
      match pyInt (pyStrip kv.2) with
      | some n => { st with depth := some n }
      | none => { st with depth := none, warn := true }
    else if k = strOf "hash" then { st with currentHash := some (pyStrip kv.2) }
    else st
  else { st with subDir := some part }

/-- Destination resolution of `parse_line` (lines 89-99 of the source),
with Python truthiness on the optional fields: an explicit path keeps the
subpath basename from being appended twice via an `endswith` test; a lone
subpath is flattened to its basename; with neither, the repository
basename with `.git` occurrences removed is used. -/
def deriveTarget (tp sd : Option Str) (repoUrl : Str) : Str :=
  if oTruthy tp && oTruthy sd then
    let t := tp.getD []
    let s := sd.getD []
    if (basename s).isSuffixOf t then t else joinPath t (basename s)
  else if oTruthy sd then basename (sd.getD [])
  else if !oTruthy tp then removeDotGit (basename repoUrl)
  else tp.getD []

/-- Result of `parse_line`: the tuple
`(repo_url, sub_dir, target_path, depth, current_hash, raw_line)` plus the
flag recording the invalid-depth diagnostic. A blank or comment line has
`repoUrl = none` (the `None` sentinel of the source). -/
structure ParseResult where
  repoUrl : Option Str
  subDir : Option Str
  targetPath : Option Str
  depth : Option Int
  currentHash : Option Str
  rawLine : Str
  depthWarn : Bool
deriving Repr, DecidableEq

/-- The `parse_line` function of the source: strip the line, drop trailing
semicolons, pass blank and comment lines through, otherwise split on
commas, take field 0 as the location and fold the remaining fields, and
derive the destination. -/
def parse_line (line : Str) : ParseResult :=
  let raw := pyStrip line
  let s := rstripSemi (pyStrip line)
  if s = [] then ⟨none, none, none, none, none, raw, false⟩
  else if s.head? = some '#' then ⟨none, none, none, none, none, raw, false⟩
  else
    match splitOnChar ',' s with
    | [] => ⟨none, none, none, none, none, raw, false⟩
    | p0 :: rest =>
      let u := pyStrip p0
      let f := rest.foldl procPart fieldsInit
      ⟨some u, f.subDir, some (deriveTarget f.targetPath f.subDir u),
        f.depth, f.currentHash, raw, f.warn⟩

/-- The canonical regenerated manifest line written for an updated entry:
`location,path=<destination>,hash=<latestRevision>` plus a newline. -/
def canonicalLine (u tp h : Str) : Str :=
  u ++ strOf ",path=" ++ tp ++ strOf ",hash=" ++ h ++ ['\n']

/-- One iteration of `update_packages_file`: blank and comment lines are
written back verbatim; an entry line whose truthy location is a key of
the updated dictionary is replaced by the canonical line; every other
line is written back verbatim. -/
def rewriteLine (updated : Str → Option (Str × Str)) (line : Str) : Str :=
  let stripped := pyStrip line
  if stripped = [] then line
  else if stripped.head? = some '#' then line
  else
    match (parse_line line).repoUrl with
    | none => line
    | some u =>
      if u = [] then line
      else
        match updated u with
        | none => line
        | some v => canonicalLine u v.1 v.2

/-- The `update_packages_file` function of the source, as the list of
chunks written, one per original line (the file content is their
concatenation). -/
def update_packages_file (lines : List Str) (updated : Str → Option (Str × Str)) :
    List Str :=
  lines.map (rewriteLine updated)

/-- One parsed and probed manifest entry as recorded in
`packages_entries`. -/
structure Entry where
  repoUrl : Str
  subDir : Option Str
  targetPath : Str
  depth : Option Int
  currentHash : Option Str
  latestHash : Str
  needsSync : Bool
deriving Repr, DecidableEq

/-- Observable side effects of the materialization pass. -/
inductive Event where
  | cleanSkipCwd (t : Str)
  | removeTree (t : Str)
  | removeFile (t : Str)
  | cloneShallow (u : Str) (d : Int) (tmp : Str)
  | cloneFull (u : Str) (tmp : Str)
  | cloneFail (u : Str)
  | rmGitDir (p : Str)
  | mkdirParentOf (p : Str)
  | copyTree (src dst : Str)
  | copyFail (src dst : Str)
  | recordSynced (p : Str)
  | rmTemp (p : Str)
deriving Repr, DecidableEq

/-- Oracles standing for the external collaborators: the remote probe
(`git ls-remote`), path resolution, filesystem queries, and the
success/failure of the clone and copy subprocesses. -/
structure Oracles where
  probe : Str → Option Str
  abspath : Str → Str
  fsExists : Str → Bool
  isDir : Str → Bool
  cloneOk : Str → Bool
  copyOk : Str → Str → Bool
  relpath : Str → Str

/-- The `clean_existing_files` function of the source, as the events it
performs: skip when the target is empty or resolves to the current
working directory, otherwise remove the existing tree or file. -/
def clean_existing_files (o : Oracles) (t : Str) : List Event :=
  if t = [] ∨ o.abspath t = o.abspath (strOf ".") then [Event.cleanSkipCwd t]
  else if o.fsExists t then
    if o.isDir t then [Event.removeTree t] else [Event.removeFile t]
  else []

/-- The fixed scratch directory `/tmp/<basename of location, .git removed>`. -/
def tmpDirOf (u : Str) : Str := strOf "/tmp/" ++ removeDotGit (basename u)

/-- Python truthiness of the parsed depth (`if depth:`): present and
nonzero. -/
def depthTruthy : Option Int → Bool
  | none => false
  | some d => d ≠ 0

/-- The clone command issued for an entry: shallow exactly when the parsed
depth is truthy. -/
def cloneAttempt (e : Entry) : Event :=
  if depthTruthy e.depth then
    Event.cloneShallow e.repoUrl (e.depth.getD 0) (tmpDirOf e.repoUrl)
  else Event.cloneFull e.repoUrl (tmpDirOf e.repoUrl)

/-- The per-entry body of the materialization loop of `sync_repositories`
(lines 185-234 of the source): clean, clone (abort entry on failure),
strip the `.git` directory, choose the copy source, ensure the parent
directory, copy (abort entry on failure), record the synced path, and
remove the scratch directory. -/
def materializeEntry (o : Oracles) (e : Entry) : List Event × Option Str :=
  let cleanEvs := clean_existing_files o e.targetPath
  let tmp := tmpDirOf e.repoUrl
  if o.cloneOk e.repoUrl then
    let gitDir := tmp ++ strOf "/.git"
    let gitEvs := if o.fsExists gitDir then [Event.rmGitDir gitDir] else []
    let src := if oTruthy e.subDir then joinPath tmp (e.subDir.getD []) else tmp
    if o.copyOk src e.targetPath then
      (cleanEvs ++ cloneAttempt e :: gitEvs ++
        [Event.mkdirParentOf e.targetPath, Event.copyTree src e.targetPath,
          Event.recordSynced (o.relpath e.targetPath), Event.rmTemp tmp],
        some (o.relpath e.targetPath))
    else
      (cleanEvs ++ cloneAttempt e :: gitEvs ++
        [Event.mkdirParentOf e.targetPath, Event.copyFail src e.targetPath],
        none)
  else (cleanEvs ++ [cloneAttempt e, Event.cloneFail e.repoUrl], none)

/-- The read-and-probe pass of `sync_repositories` for one line: skip
blank/comment lines and falsy locations, probe the remote, skip the entry
when the probe fails or yields an empty hash, and evaluate staleness. -/
def parseEntry (probe : Str → Option Str) (line : Str) : Option Entry :=
  let pr := parse_line line
  match pr.repoUrl with
  | none => none
  | some u =>
    if u = [] then none
    else
      match probe u with
      | none => none
      | some latest =>
        if latest = [] then none
        else
          let ns := !oTruthy pr.currentHash || decide (pr.currentHash ≠ some latest)
          some ⟨u, pr.subDir, pr.targetPath.getD [], pr.depth, pr.currentHash,
            latest, ns⟩

/-- The `updated_entries` dictionary: every entry that needs
synchronization is recorded under its location as soon as it is parsed,
later entries overwriting earlier ones. -/
def buildUpdated (es : List Entry) : Str → Option (Str × Str) :=
  es.foldl
    (fun d e =>
      if e.needsSync then
        fun u => if u = e.repoUrl then some (e.targetPath, e.latestHash) else d u
      else d)
    (fun _ => none)

/-- The materialization pass: entries that need synchronization are
materialized sequentially in manifest order, accumulating the event trace
and the synced-paths list. -/
def pass2 (o : Oracles) (es : List Entry) : List Event × List Str :=
  es.foldl
    (fun acc e =>
      if e.needsSync then
        let r := materializeEntry o e
        (acc.1 ++ r.1, acc.2 ++ (match r.2 with | some q => [q] | none => []))
      else acc)
    ([], [])

/-- Everything a run produces: the rewritten manifest (one chunk per
original line), the synced-paths file content (one path per line), the
event trace, the probed entries, and the updated-entries dictionary. -/
structure RunResult where
  manifestOut : List Str
  syncedPaths : List Str
  events : List Event
  entries : List Entry
  updatedAt : Str → Option (Str × Str)

/-- The `sync_repositories` function of the source over the manifest's
lines: parse and probe every line, build the updated dictionary, run the
materialization pass, and rewrite the state files. -/
def sync_repositories (o : Oracles) (lines : List Str) : RunResult :=
  let entries := lines.filterMap (parseEntry o.probe)
  let upd := buildUpdated entries
  let r2 := pass2 o entries
  ⟨update_packages_file lines upd, r2.2, r2.1, entries, upd⟩

/-- A well-formed revision token as produced by taking the first
whitespace-delimited field of the probe's output: no whitespace, no
comma, no semicolon. -/
def tokenOk (h : Str) : Prop := ∀ c ∈ h, isSpace c = false ∧ c ≠ ',' ∧ c ≠ ';'

/-! ### Generic lemmas about `dropWhile` and `rdrop` -/

theorem dropWhile_head_not {α} {p : α → Bool} :
    ∀ {l : List α} {c : α}, (l.dropWhile p).head? = some c → p c = false := by
  intro l
  induction l with
  | nil => intro c h; simp [List.dropWhile] at h
  | cons a t ih =>
    intro c h
    by_cases hp : p a
    · rw [List.dropWhile_cons_of_pos hp] at h
      exact ih h
    · rw [List.dropWhile_cons_of_neg hp] at h
      simp only [List.head?_cons, Option.some.injEq] at h
      subst h
      simpa using hp

theorem mem_dropWhile_of_neg {α} {p : α → Bool} {c : α} :
    ∀ {l : List α}, c ∈ l → p c = false → c ∈ l.dropWhile p := by
  intro l
  induction l with
  | nil => intro h; simp at h
  | cons a t ih =>
    intro hm hp
    by_cases hpa : p a
    · rw [List.dropWhile_cons_of_pos hpa]
      rcases List.mem_cons.mp hm with h | h
      · subst h; rw [hp] at hpa; cases hpa
      · exact ih h hp
    · rw [List.dropWhile_cons_of_neg hpa]
      exact hm

theorem dropWhile_eq_nil_of_all {α} {p : α → Bool} :
    ∀ {l : List α}, (∀ c ∈ l, p c = true) → l.dropWhile p = [] := by
  intro l
  induction l with
  | nil => intro _; rfl
  | cons a t ih =>
    intro h
    rw [List.dropWhile_cons_of_pos (h a (List.mem_cons_self a t))]
    exact ih (fun c hc => h c (List.mem_cons_of_mem a hc))

theorem rdrop_nil {p : Char → Bool} : rdrop p [] = [] := rfl

theorem rdrop_concat_of_neg {p : Char → Bool} {c : Char} {l : Str} (h : p c = false) :
    rdrop p (l ++ [c]) = l ++ [c] := by
  unfold rdrop
  rw [List.reverse_append]
  simp only [List.reverse_cons, List.reverse_nil, List.nil_append, List.cons_append,
    List.nil_append]
  rw [List.dropWhile_cons_of_neg (by simp [h])]
  simp

theorem rdrop_concat_of_pos {p : Char → Bool} {c : Char} {l : Str} (h : p c = true) :
    rdrop p (l ++ [c]) = rdrop p l := by
  unfold rdrop
  rw [List.reverse_append]
  simp only [List.reverse_cons, List.reverse_nil, List.nil_append, List.cons_append,
    List.nil_append]
  rw [List.dropWhile_cons_of_pos (by simp [h])]

theorem rdrop_append {p : Char → Bool} (l₁ l₂ : Str) :
    rdrop p (l₁ ++ l₂) = if rdrop p l₂ = [] then rdrop p l₁ else l₁ ++ rdrop p l₂ := by
  unfold rdrop
  rw [List.reverse_append, List.dropWhile_append]
  by_cases h : l₂.reverse.dropWhile p = []
  · simp [h]
  · have h' : (l₂.reverse.dropWhile p).isEmpty = false := by
      cases hc : l₂.reverse.dropWhile p with
      | nil => exact absurd hc h
      | cons a t => rfl
    have h'' : (l₂.reverse.dropWhile p).reverse ≠ [] := by
      intro hr
      exact h (by simpa using congrArg List.reverse hr)
    simp [h', h'', List.reverse_append]

theorem rdrop_cons_of_neg {p : Char → Bool} {c : Char} {t : Str} (h : p c = false) :
    rdrop p (c :: t) = c :: rdrop p t := by
  have : (c :: t) = [c] ++ t := rfl
  rw [this, rdrop_append]
  by_cases ht : rdrop p t = []
  · rw [if_pos ht, ht]
    exact @rdrop_concat_of_neg p c [] h
  · rw [if_neg ht]
    rfl

theorem rdrop_head_cases {p : Char → Bool} :
    ∀ (l : Str), rdrop p l = [] ∨ (rdrop p l).head? = l.head? := by
  intro l
  cases l with
  | nil => left; rfl
  | cons c t =>
    have : (c :: t) = [c] ++ t := rfl
    rw [this, rdrop_append]
    by_cases ht : rdrop p t = []
    · rw [if_pos ht]
      by_cases hc : p c
      · left
        show rdrop p ([] ++ [c]) = []
        rw [List.nil_append]
        have := @rdrop_concat_of_pos p c ([] : Str) hc
        simpa using this
      · right
        have := @rdrop_concat_of_neg p c ([] : Str) (by simpa using hc)
        simp only [List.nil_append] at this
        rw [this]
        simp
    · rw [if_neg ht]
      right
      rfl

theorem rdrop_getLast_not {p : Char → Bool} {l : Str} {c : Char}
    (h : (rdrop p l).getLast? = some c) : p c = false := by
  unfold rdrop at h
  rw [List.getLast?_reverse] at h
  exact dropWhile_head_not h

theorem rdrop_noop_of_getLast {p : Char → Bool} {l : Str}
    (h : ∀ c, l.getLast? = some c → p c = false) : rdrop p l = l := by
  induction l using List.reverseRecOn with
  | nil => rfl
  | append_singleton t c _ =>
    exact rdrop_concat_of_neg (h c (List.getLast?_concat t))

theorem mem_rdrop {p : Char → Bool} {l : Str} {c : Char} (h : c ∈ rdrop p l) : c ∈ l := by
  unfold rdrop at h
  rw [List.mem_reverse] at h
  have := (@List.dropWhile_sublist _ l.reverse p).mem h
  rwa [List.mem_reverse] at this

theorem mem_rdrop_of_neg {p : Char → Bool} {l : Str} {c : Char}
    (hc : c ∈ l) (hp : p c = false) : c ∈ rdrop p l := by
  unfold rdrop
  rw [List.mem_reverse]
  exact mem_dropWhile_of_neg (List.mem_reverse.mpr hc) hp

theorem rdrop_eq_nil_of_all {p : Char → Bool} {l : Str}
    (h : ∀ c ∈ l, p c = true) : rdrop p l = [] := by
  unfold rdrop
  rw [dropWhile_eq_nil_of_all (fun c hc => h c (List.mem_reverse.mp hc))]
  rfl

theorem rdrop_idem {p : Char → Bool} (l : Str) : rdrop p (rdrop p l) = rdrop p l := by
  apply rdrop_noop_of_getLast
  intro c hc
  exact rdrop_getLast_not hc

/-! ### Lemmas about the Python strip operations -/

theorem lstripWs_cons_of_neg {c : Char} {t : Str} (h : isSpace c = false) :
    lstripWs (c :: t) = c :: t :=
  List.dropWhile_cons_of_neg (by simp [h])

theorem lstripWs_noop {l : Str} (h : ∀ c, l.head? = some c → isSpace c = false) :
    lstripWs l = l := by
  cases l with
  | nil => rfl
  | cons c t => exact lstripWs_cons_of_neg (h c rfl)

theorem lstripWs_append (l₁ l₂ : Str) :
    lstripWs (l₁ ++ l₂) = if lstripWs l₁ = [] then lstripWs l₂ else lstripWs l₁ ++ l₂ := by
  unfold lstripWs
  rw [List.dropWhile_append]
  by_cases h : l₁.dropWhile isSpace = []
  · simp [h]
  · have h' : (l₁.dropWhile isSpace).isEmpty = false := by
      cases hc : l₁.dropWhile isSpace with
      | nil => exact absurd hc h
      | cons a t => rfl
    simp [h', h]

theorem lstripWs_head_not {l : Str} {c : Char}
    (h : (lstripWs l).head? = some c) : isSpace c = false :=
  dropWhile_head_not h

theorem pyStrip_head_not {l : Str} {c : Char}
    (h : (pyStrip l).head? = some c) : isSpace c = false := by
  unfold pyStrip rstripWs at h
  cases hs : lstripWs l with
  | nil => rw [hs] at h; simp [rdrop_nil] at h
  | cons a t =>
    have ha : isSpace a = false := lstripWs_head_not (by rw [hs]; rfl)
    rw [hs, rdrop_cons_of_neg ha] at h
    simp only [List.head?_cons, Option.some.injEq] at h
    subst h
    exact ha

theorem pyStrip_getLast_not {l : Str} {c : Char}
    (h : (pyStrip l).getLast? = some c) : isSpace c = false :=
  rdrop_getLast_not h

theorem pyStrip_noop {l : Str}
    (h1 : ∀ c, l.head? = some c → isSpace c = false)
    (h2 : ∀ c, l.getLast? = some c → isSpace c = false) : pyStrip l = l := by
  unfold pyStrip
  rw [lstripWs_noop h1]
  exact rdrop_noop_of_getLast h2

theorem pyStrip_idem (l : Str) : pyStrip (pyStrip l) = pyStrip l :=
  pyStrip_noop (fun _ h => pyStrip_head_not h) (fun _ h => pyStrip_getLast_not h)

theorem mem_pyStrip {l : Str} {c : Char} (h : c ∈ pyStrip l) : c ∈ l := by
  unfold pyStrip rstripWs at h
  have h' := mem_rdrop h
  exact (List.dropWhile_sublist isSpace).mem h'

theorem mem_pyStrip_of_neg {l : Str} {c : Char}
    (hc : c ∈ l) (hp : isSpace c = false) : c ∈ pyStrip l :=
  mem_rdrop_of_neg (mem_dropWhile_of_neg hc hp) hp

theorem pyStrip_eq_nil_iff_aux {l : Str} (h : pyStrip l = []) : lstripWs l = [] ∨ rdrop isSpace (lstripWs l) = [] := by
  right; exact h

theorem pyStrip_append_newline (l : Str) : pyStrip (l ++ ['\n']) = pyStrip l := by
  unfold pyStrip rstripWs
  rw [lstripWs_append]
  by_cases h : lstripWs l = []
  · rw [if_pos h, h]
    have hnl : lstripWs ['\n'] = [] := by decide
    rw [hnl]
  · rw [if_neg h]
    exact rdrop_concat_of_pos (by decide)

theorem pyStrip_noop_of_all {l : Str} (h : ∀ c ∈ l, isSpace c = false) : pyStrip l = l :=
  pyStrip_noop
    (fun c hc => h c (by cases l with
      | nil => cases hc
      | cons a t => simp only [List.head?_cons, Option.some.injEq] at hc; subst hc; exact List.mem_cons_self a t))
    (fun c hc => h c (List.mem_of_mem_getLast? hc))

theorem rstripSemi_noop {l : Str} (h : ∀ c, l.getLast? = some c → c ≠ ';') :
    rstripSemi l = l :=
  rdrop_noop_of_getLast (fun c hc => by simpa using h c hc)

theorem rstripSemi_head_cases (l : Str) :
    rstripSemi l = [] ∨ (rstripSemi l).head? = l.head? :=
  rdrop_head_cases l

theorem mem_rstripSemi {l : Str} {c : Char} (h : c ∈ rstripSemi l) : c ∈ l :=
  mem_rdrop h

theorem lstripWs_rdrop_comm :
    ∀ (l : Str), lstripWs (rdrop isSpace l) = rdrop isSpace (lstripWs l) := by
  intro l
  induction l with
  | nil => rfl
  | cons c t ih =>
    by_cases hc : isSpace c
    · have h1 : lstripWs (c :: t) = lstripWs t := List.dropWhile_cons_of_pos (by simpa using hc)
      rw [h1, ← ih]
      have h2 : (c :: t) = [c] ++ t := rfl
      rw [h2, rdrop_append]
      by_cases ht : rdrop isSpace t = []
      · rw [if_pos ht, ht]
        have : rdrop isSpace [c] = [] := by
          have := @rdrop_concat_of_pos isSpace c ([] : Str) (by simpa using hc)
          simpa using this
        rw [this]
      · rw [if_neg ht]
        have h3 : ([c] ++ rdrop isSpace t) = c :: rdrop isSpace t := rfl
        rw [h3]
        exact List.dropWhile_cons_of_pos (by simpa using hc)
    · have hcf : isSpace c = false := by simpa using hc
      rw [rdrop_cons_of_neg hcf, lstripWs_cons_of_neg hcf, lstripWs_cons_of_neg hcf,
        rdrop_cons_of_neg hcf]

theorem pyStrip_rstripWs (l : Str) : pyStrip (rstripWs l) = pyStrip l := by
  unfold pyStrip rstripWs
  rw [lstripWs_rdrop_comm, rdrop_idem]

/-! ### Lemmas about `splitOnChar` and `splitKV` -/

theorem splitOnChar_cons_eq (sep : Char) :
    ∀ (l : Str), ∃ h t, splitOnChar sep l = h :: t := by
  intro l
  induction l with
  | nil => exact ⟨[], [], rfl⟩
  | cons c cs ih =>
    obtain ⟨h, t, he⟩ := ih
    by_cases hc : c = sep
    · exact ⟨[], h :: t, by simp [splitOnChar, he, hc]⟩
    · exact ⟨c :: h, t, by simp [splitOnChar, he, hc]⟩

theorem splitOnChar_ne_nil (sep : Char) (l : Str) : splitOnChar sep l ≠ [] := by
  obtain ⟨h, t, he⟩ := splitOnChar_cons_eq sep l
  simp [he]

theorem splitOnChar_cons_sep (sep : Char) (cs : Str) :
    splitOnChar sep (sep :: cs) = [] :: splitOnChar sep cs := by
  obtain ⟨h, t, he⟩ := splitOnChar_cons_eq sep cs
  simp [splitOnChar, he]

theorem splitOnChar_cons_of_ne {sep c : Char} (cs : Str) (hc : c ≠ sep) {h : Str}
    {t : List Str} (he : splitOnChar sep cs = h :: t) :
    splitOnChar sep (c :: cs) = (c :: h) :: t := by
  simp [splitOnChar, he, hc]

theorem splitOnChar_not_mem {sep : Char} :
    ∀ {l : Str}, sep ∉ l → splitOnChar sep l = [l] := by
  intro l
  induction l with
  | nil => intro _; rfl
  | cons c cs ih =>
    intro h
    have hc : c ≠ sep := fun he => h (he ▸ List.mem_cons_self c cs)
    have hcs : sep ∉ cs := fun hm => h (List.mem_cons_of_mem c hm)
    exact splitOnChar_cons_of_ne cs hc (ih hcs)

theorem splitOnChar_append_sep {sep : Char} :
    ∀ {l₁ : Str} (l₂ : Str), sep ∉ l₁ →
      splitOnChar sep (l₁ ++ sep :: l₂) = l₁ :: splitOnChar sep l₂ := by
  intro l₁
  induction l₁ with
  | nil =>
    intro l₂ _
    simpa using splitOnChar_cons_sep sep l₂
  | cons c t ih =>
    intro l₂ h
    have hc : c ≠ sep := fun he => h (he ▸ List.mem_cons_self c t)
    have ht : sep ∉ t := fun hm => h (List.mem_cons_of_mem c hm)
    have := ih l₂ ht
    exact splitOnChar_cons_of_ne (t ++ sep :: l₂) hc this

theorem splitOnChar_mem_not_mem {sep : Char} :
    ∀ {l : Str} {p : Str}, p ∈ splitOnChar sep l → sep ∉ p := by
  intro l
  induction l with
  | nil =>
    intro p hp
    simp only [splitOnChar, List.mem_singleton] at hp
    subst hp
    simp
  | cons c cs ih =>
    intro p hp
    obtain ⟨h, t, he⟩ := splitOnChar_cons_eq sep cs
    by_cases hc : c = sep
    · subst hc
      rw [splitOnChar_cons_sep] at hp
      rcases List.mem_cons.mp hp with h1 | h1
      · subst h1; simp
      · exact ih h1
    · rw [splitOnChar_cons_of_ne cs hc he] at hp
      rcases List.mem_cons.mp hp with h1 | h1
      · subst h1
        intro hm
        rcases List.mem_cons.mp hm with h2 | h2
        · exact hc h2.symm
        · exact ih (he ▸ List.mem_cons_self h t) h2
      · exact ih (he ▸ List.mem_cons_of_mem h h1)

theorem splitOnChar_mem_subset {sep : Char} :
    ∀ {l : Str} {p : Str} {c : Char}, p ∈ splitOnChar sep l → c ∈ p → c ∈ l := by
  intro l
  induction l with
  | nil =>
    intro p c hp hc
    simp only [splitOnChar, List.mem_singleton] at hp
    subst hp
    cases hc
  | cons a cs ih =>
    intro p c hp hc
    obtain ⟨h, t, he⟩ := splitOnChar_cons_eq sep cs
    by_cases ha : a = sep
    · subst ha
      rw [splitOnChar_cons_sep] at hp
      rcases List.mem_cons.mp hp with h1 | h1
      · subst h1; cases hc
      · exact List.mem_cons_of_mem a (ih h1 hc)
    · rw [splitOnChar_cons_of_ne cs ha he] at hp
      rcases List.mem_cons.mp hp with h1 | h1
      · subst h1
        rcases List.mem_cons.mp hc with h2 | h2
        · exact h2 ▸ List.mem_cons_self a cs
        · exact List.mem_cons_of_mem a (ih (he ▸ List.mem_cons_self h t) h2)
      · exact List.mem_cons_of_mem a (ih (he ▸ List.mem_cons_of_mem h h1) hc)

theorem splitOnChar_head_cases {sep : Char} {l : Str} {p : Str} {rest : List Str}
    (h : splitOnChar sep l = p :: rest) : p = [] ∨ p.head? = l.head? := by
  cases l with
  | nil =>
    simp only [splitOnChar, List.cons.injEq] at h
    exact Or.inl h.1.symm
  | cons c cs =>
    obtain ⟨h0, t0, he⟩ := splitOnChar_cons_eq sep cs
    by_cases hc : c = sep
    · subst hc
      rw [splitOnChar_cons_sep] at h
      exact Or.inl (List.cons.injEq .. ▸ h).1.symm
    · rw [splitOnChar_cons_of_ne cs hc he] at h
      have := (List.cons.injEq .. ▸ h).1
      right
      rw [← this]
      rfl

theorem splitKV_append {k : Str} (v : Str) (h : '=' ∉ k) :
    splitKV (k ++ '=' :: v) = (k, v) := by
  induction k with
  | nil => simp [splitKV]
  | cons c t ih =>
    have hc : c ≠ '=' := fun he => h (he ▸ List.mem_cons_self c t)
    have ht : '=' ∉ t := fun hm => h (List.mem_cons_of_mem c hm)
    simp [splitKV, hc, ih ht]

theorem mem_splitKV_fst {c : Char} : ∀ {l : Str}, c ∈ (splitKV l).1 → c ∈ l := by
  intro l
  induction l with
  | nil => intro h; cases h
  | cons a t ih =>
    intro h
    by_cases ha : a = '='
    · simp [splitKV, ha] at h
    · simp only [splitKV, if_neg ha] at h
      rcases List.mem_cons.mp h with h1 | h1
      · exact h1 ▸ List.mem_cons_self a t
      · exact List.mem_cons_of_mem a (ih h1)

theorem mem_splitKV_snd {c : Char} : ∀ {l : Str}, c ∈ (splitKV l).2 → c ∈ l := by
  intro l
  induction l with
  | nil => intro h; cases h
  | cons a t ih =>
    intro h
    by_cases ha : a = '='
    · simp only [splitKV, if_pos ha] at h
      exact List.mem_cons_of_mem a h
    · simp only [splitKV, if_neg ha] at h
      exact List.mem_cons_of_mem a (ih h)

/-! ### Charset lemmas for `basename`, `joinPath`, `removeDotGit` -/

theorem mem_basename {p : Str} {c : Char} (h : c ∈ basename p) : c ∈ p := by
  unfold basename at h
  rw [List.mem_reverse] at h
  have := (@List.takeWhile_sublist _ p.reverse _).mem h
  rwa [List.mem_reverse] at this

theorem mem_joinPath {a b : Str} {c : Char} (h : c ∈ joinPath a b) :
    c ∈ a ∨ c ∈ b ∨ c = '/' := by
  unfold joinPath at h
  split at h
  · exact Or.inr (Or.inl h)
  · split at h
    · rcases List.mem_append.mp h with h1 | h1
      · exact Or.inl h1
      · exact Or.inr (Or.inl h1)
    · rcases List.mem_append.mp h with h1 | h1
      · exact Or.inl h1
      · rcases List.mem_cons.mp h1 with h2 | h2
        · exact Or.inr (Or.inr h2)
        · exact Or.inr (Or.inl h2)

theorem mem_removeDotGit {c : Char} : ∀ {l : Str}, c ∈ removeDotGit l → c ∈ l := by
  intro l h
  induction l using removeDotGit.induct with
  | case1 rest ih =>
    rw [removeDotGit] at h
    have := ih h
    simp [this]
  | case2 a rest hne ih =>
    rw [removeDotGit] at h
    · rcases List.mem_cons.mp h with h1 | h1
      · exact h1 ▸ List.mem_cons_self a rest
      · exact List.mem_cons_of_mem a (ih h1)
    · exact hne
  | case3 =>
    cases h

/-! ### Lemmas about `procPart` and `parse_line` -/

theorem contains_eq_false_of_not_mem {l : Str} {c : Char} (h : c ∉ l) :
    l.contains c = false := by
  cases hc : l.contains c with
  | false => rfl
  | true => exact absurd (List.elem_iff.mp hc) h

theorem contains_eq_true_of_mem {l : Str} {c : Char} (h : c ∈ l) :
    l.contains c = true :=
  List.elem_iff.mpr h

theorem procPart_subdir {st : Fields} {part : Str}
    (h1 : pyStrip part = part) (h2 : '=' ∉ part) :
    procPart st part = { st with subDir := some part } := by
  simp only [procPart]
  rw [h1, contains_eq_false_of_not_mem h2]
  simp

theorem pyStrip_append_fixed {x : Str} (y : Str) (hne : x ≠ [])
    (h1 : ∀ c, x.head? = some c → isSpace c = false)
    (h2 : ∀ c, x.getLast? = some c → isSpace c = false) :
    pyStrip (x ++ y) = x ++ rstripWs y := by
  unfold pyStrip
  rw [lstripWs_append, lstripWs_noop h1, if_neg hne]
  show rdrop isSpace (x ++ y) = x ++ rstripWs y
  rw [rdrop_append]
  by_cases hy : rdrop isSpace y = []
  · rw [if_pos hy]
    unfold rstripWs
    rw [hy, List.append_nil]
    exact rdrop_noop_of_getLast h2
  · rw [if_neg hy]
    rfl

theorem procPart_path {st : Fields} (tp : Str) :
    procPart st (strOf "path=" ++ tp) = { st with targetPath := some (pyStrip tp) } := by
  simp only [procPart]
  have hstrip : pyStrip (strOf "path=" ++ tp) = strOf "path=" ++ rstripWs tp :=
    pyStrip_append_fixed tp (by decide) (by decide) (by decide)
  rw [hstrip]
  have hcontains : (strOf "path=" ++ rstripWs tp).contains '=' = true :=
    contains_eq_true_of_mem (List.mem_append.mpr (Or.inl (by decide)))
  rw [hcontains]
  have hshape : strOf "path=" ++ rstripWs tp = strOf "path" ++ '=' :: rstripWs tp := rfl
  rw [hshape, splitKV_append _ (by decide)]
  have hkey : pyStrip (strOf "path") = strOf "path" := by decide
  rw [hkey]
  rw [pyStrip_rstripWs]
  simp

theorem procPart_hash {st : Fields} (h : Str) :
    procPart st (strOf "hash=" ++ h) = { st with currentHash := some (pyStrip h) } := by
  simp only [procPart]
  have hstrip : pyStrip (strOf "hash=" ++ h) = strOf "hash=" ++ rstripWs h :=
    pyStrip_append_fixed h (by decide) (by decide) (by decide)
  rw [hstrip]
  have hcontains : (strOf "hash=" ++ rstripWs h).contains '=' = true :=
    contains_eq_true_of_mem (List.mem_append.mpr (Or.inl (by decide)))
  rw [hcontains]
  have hshape : strOf "hash=" ++ rstripWs h = strOf "hash" ++ '=' :: rstripWs h := rfl
  rw [hshape, splitKV_append _ (by decide)]
  have hkey : pyStrip (strOf "hash") = strOf "hash" := by decide
  rw [hkey]
  rw [pyStrip_rstripWs]
  simp [show strOf "hash" ≠ strOf "path" by decide, show strOf "hash" ≠ strOf "depth" by decide]

theorem procPart_depth_zero {st : Fields} :
    procPart st (strOf "depth=0") = { st with depth := some 0 } := rfl

theorem parse_line_entry {line s p0 : Str} {rest : List Str}
    (hs : rstripSemi (pyStrip line) = s) (hne : s ≠ []) (hh : s.head? ≠ some '#')
    (hsplit : splitOnChar ',' s = p0 :: rest) :
    parse_line line = ⟨some (pyStrip p0),
      (rest.foldl procPart fieldsInit).subDir,
      some (deriveTarget (rest.foldl procPart fieldsInit).targetPath
        (rest.foldl procPart fieldsInit).subDir (pyStrip p0)),
      (rest.foldl procPart fieldsInit).depth,
      (rest.foldl procPart fieldsInit).currentHash,
      pyStrip line,
      (rest.foldl procPart fieldsInit).warn⟩ := by
  unfold parse_line
  rw [hs, if_neg hne, if_neg hh, hsplit]

theorem parse_line_elim {line u : Str} (h : (parse_line line).repoUrl = some u) :
    ∃ p0 rest,
      rstripSemi (pyStrip line) ≠ [] ∧
      (rstripSemi (pyStrip line)).head? ≠ some '#' ∧
      splitOnChar ',' (rstripSemi (pyStrip line)) = p0 :: rest ∧
      u = pyStrip p0 ∧
      parse_line line =
        ⟨some (pyStrip p0), (rest.foldl procPart fieldsInit).subDir,
          some (deriveTarget (rest.foldl procPart fieldsInit).targetPath
            (rest.foldl procPart fieldsInit).subDir (pyStrip p0)),
          (rest.foldl procPart fieldsInit).depth,
          (rest.foldl procPart fieldsInit).currentHash,
          pyStrip line, (rest.foldl procPart fieldsInit).warn⟩ := by
  by_cases h1 : rstripSemi (pyStrip line) = []
  · exfalso
    simp only [parse_line] at h
    rw [if_pos h1] at h
    simp at h
  · by_cases h2 : (rstripSemi (pyStrip line)).head? = some '#'
    · exfalso
      simp only [parse_line] at h
      rw [if_neg h1, if_pos h2] at h
      simp at h
    · obtain ⟨p0, rest, hsplit⟩ := splitOnChar_cons_eq ',' (rstripSemi (pyStrip line))
      have he := parse_line_entry rfl h1 h2 hsplit
      refine ⟨p0, rest, h1, h2, hsplit, ?_, he⟩
      rw [he] at h
      simpa using h.symm

theorem parse_repoUrl_strip {line u : Str} (h : (parse_line line).repoUrl = some u) :
    pyStrip u = u := by
  obtain ⟨p0, _, _, _, _, hu, _⟩ := parse_line_elim h
  subst hu
  exact pyStrip_idem p0

theorem parse_targetPath_isSome {line u : Str} (h : (parse_line line).repoUrl = some u) :
    ∃ tp, (parse_line line).targetPath = some tp := by
  obtain ⟨p0, rest, _, _, _, _, he⟩ := parse_line_elim h
  rw [he]
  exact ⟨_, rfl⟩

theorem parse_some_not_blank {line u : Str} (h : (parse_line line).repoUrl = some u) :
    pyStrip line ≠ [] ∧ (pyStrip line).head? ≠ some '#' := by
  obtain ⟨p0, rest, h1, h2, _, _, _⟩ := parse_line_elim h
  constructor
  · intro hnil
    apply h1
    rw [hnil]
    rfl
  · intro hhash
    rcases rstripSemi_head_cases (pyStrip line) with hc | hc
    · exact h1 hc
    · exact h2 (hc.trans hhash)

theorem pyStrip_head_of_head {l : Str} {c : Char}
    (hl : l.head? = some c) (hc : isSpace c = false) :
    pyStrip l = [] ∨ (pyStrip l).head? = some c := by
  cases l with
  | nil => cases hl
  | cons a t =>
    simp only [List.head?_cons, Option.some.injEq] at hl
    subst hl
    unfold pyStrip
    rw [lstripWs_cons_of_neg hc]
    rcases @rdrop_head_cases isSpace (a :: t) with h | h
    · exact Or.inl h
    · exact Or.inr (h.trans rfl)

theorem parse_repoUrl_head {line u : Str} (h : (parse_line line).repoUrl = some u)
    (hu : u ≠ []) : u.head? ≠ some '#' := by
  obtain ⟨p0, rest, h1, h2, hsplit, huv, _⟩ := parse_line_elim h
  rcases splitOnChar_head_cases hsplit with hp | hp
  · subst hp
    subst huv
    exact absurd rfl hu
  · have hpl := parse_some_not_blank h
    cases hline : (pyStrip line).head? with
    | none =>
      exfalso
      apply hpl.1
      cases hv : pyStrip line with
      | nil => rfl
      | cons a t => rw [hv] at hline; cases hline
    | some c =>
      have hcs : isSpace c = false := pyStrip_head_not hline
      have hshead : (rstripSemi (pyStrip line)).head? = some c := by
        rcases rstripSemi_head_cases (pyStrip line) with hc | hc
        · exact absurd hc h1
        · exact hc.trans hline
      have hp0 : p0.head? = some c := hp.trans hshead
      rcases pyStrip_head_of_head hp0 hcs with hnil | hhead
      · exact absurd (huv.trans hnil) hu
      · rw [huv, hhead]
        intro hco
        have : c = '#' := by simpa using hco
        subst this
        exact hpl.2 hline

theorem parse_repoUrl_not_comma {line u : Str} (h : (parse_line line).repoUrl = some u) :
    ',' ∉ u := by
  obtain ⟨p0, rest, _, _, hsplit, huv, _⟩ := parse_line_elim h
  subst huv
  intro hm
  exact splitOnChar_mem_not_mem (hsplit ▸ List.mem_cons_self p0 rest) (mem_pyStrip hm)

/-! ### Comma-freeness of the derived destination -/

/-- No comma occurs in the optional string. -/
def NoComma : Option Str → Prop
  | none => True
  | some x => ',' ∉ x

theorem procPart_sub_cases (st : Fields) (a : Str) :
    (procPart st a).subDir = st.subDir ∨
      ∃ x, (procPart st a).subDir = some x ∧ ∀ c ∈ x, c ∈ a := by
  simp only [procPart]
  split
  · split
    · exact Or.inl rfl
    · split
      · split
        · exact Or.inl rfl
        · exact Or.inl rfl
      · split
        · exact Or.inl rfl
        · exact Or.inl rfl
  · exact Or.inr ⟨pyStrip a, rfl, fun c hc => mem_pyStrip hc⟩

theorem procPart_target_cases (st : Fields) (a : Str) :
    (procPart st a).targetPath = st.targetPath ∨
      ∃ x, (procPart st a).targetPath = some x ∧ ∀ c ∈ x, c ∈ a := by
  simp only [procPart]
  split
  · split
    · refine Or.inr ⟨_, rfl, fun c hc => ?_⟩
      exact mem_pyStrip (mem_splitKV_snd (mem_pyStrip hc))
    · split
      · split
        · exact Or.inl rfl
        · exact Or.inl rfl
      · split
        · exact Or.inl rfl
        · exact Or.inl rfl
  · exact Or.inl rfl

theorem procPart_hash_cases (st : Fields) (a : Str) :
    (procPart st a).currentHash = st.currentHash ∨
      ∃ x, (procPart st a).currentHash = some x ∧ ∀ c ∈ x, c ∈ a := by
  simp only [procPart]
  split
  · split
    · exact Or.inl rfl
    · split
      · split
        · exact Or.inl rfl
        · exact Or.inl rfl
      · split
        · refine Or.inr ⟨_, rfl, fun c hc => ?_⟩
          exact mem_pyStrip (mem_splitKV_snd (mem_pyStrip hc))
        · exact Or.inl rfl
  · exact Or.inl rfl

theorem foldl_procPart_nocomma :
    ∀ (parts : List Str) (st : Fields), (∀ p ∈ parts, ',' ∉ p) →
      NoComma st.subDir → NoComma st.targetPath → NoComma st.currentHash →
      NoComma (parts.foldl procPart st).subDir ∧
        NoComma (parts.foldl procPart st).targetPath ∧
        NoComma (parts.foldl procPart st).currentHash := by
  intro parts
  induction parts with
  | nil => intro st _ hs ht hh; exact ⟨hs, ht, hh⟩
  | cons a t ih =>
    intro st hp hs ht hh
    rw [List.foldl_cons]
    have ha : ',' ∉ a := hp a (List.mem_cons_self a t)
    have hs' : NoComma (procPart st a).subDir := by
      rcases procPart_sub_cases st a with h | ⟨x, hx, hsub⟩
      · rw [h]; exact hs
      · rw [hx]; exact fun hm => ha (hsub ',' hm)
    have ht' : NoComma (procPart st a).targetPath := by
      rcases procPart_target_cases st a with h | ⟨x, hx, hsub⟩
      · rw [h]; exact ht
      · rw [hx]; exact fun hm => ha (hsub ',' hm)
    have hh' : NoComma (procPart st a).currentHash := by
      rcases procPart_hash_cases st a with h | ⟨x, hx, hsub⟩
      · rw [h]; exact hh
      · rw [hx]; exact fun hm => ha (hsub ',' hm)
    exact ih (procPart st a) (fun p hm => hp p (List.mem_cons_of_mem a hm)) hs' ht' hh'

theorem deriveTarget_mem {tpo sdo : Option Str} {u : Str} {c : Char}
    (h : c ∈ deriveTarget tpo sdo u) :
    (∃ t, tpo = some t ∧ c ∈ t) ∨ (∃ s, sdo = some s ∧ c ∈ s) ∨ c ∈ u ∨ c = '/' := by
  simp only [deriveTarget] at h
  split at h
  · split at h
    · cases tpo with
      | none => cases h
      | some t => exact Or.inl ⟨t, rfl, h⟩
    · rcases mem_joinPath h with h1 | h1 | h1
      · cases tpo with
        | none => cases h1
        | some t => exact Or.inl ⟨t, rfl, h1⟩
      · cases sdo with
        | none => cases (mem_basename h1)
        | some s => exact Or.inr (Or.inl ⟨s, rfl, mem_basename h1⟩)
      · exact Or.inr (Or.inr (Or.inr h1))
  · split at h
    · cases sdo with
      | none => cases (mem_basename h)
      | some s => exact Or.inr (Or.inl ⟨s, rfl, mem_basename h⟩)
    · split at h
      · exact Or.inr (Or.inr (Or.inl (mem_basename (mem_removeDotGit h))))
      · cases tpo with
        | none => cases h
        | some t => exact Or.inl ⟨t, rfl, h⟩

theorem parse_targetPath_not_comma {line u tp : Str}
    (hr : (parse_line line).repoUrl = some u)
    (ht : (parse_line line).targetPath = some tp) : ',' ∉ tp := by
  obtain ⟨p0, rest, _, _, hsplit, huv, he⟩ := parse_line_elim hr
  rw [he] at ht
  simp only [Option.some.injEq] at ht
  have hparts : ∀ p ∈ rest, ',' ∉ p := fun p hm =>
    splitOnChar_mem_not_mem (hsplit ▸ List.mem_cons_of_mem p0 hm)
  have hf := foldl_procPart_nocomma rest fieldsInit hparts trivial trivial trivial
  have hu : ',' ∉ u := parse_repoUrl_not_comma hr
  intro hm
  rw [← ht] at hm
  rcases deriveTarget_mem hm with ⟨t, hteq, htm⟩ | ⟨s, hseq, hsm⟩ | h1 | h1
  · have := hf.2.1
    rw [hteq] at this
    exact this htm
  · have := hf.1
    rw [hseq] at this
    exact this hsm
  · rw [← huv] at h1
    exact hu h1
  · cases h1

/-! ### Parsing the canonical regenerated line -/

theorem tokenOk_pyStrip {h : Str} (ht : tokenOk h) : pyStrip h = h :=
  pyStrip_noop_of_all (fun c hc => (ht c hc).1)

theorem pyStrip_fixed_head {u : Str} {c : Char} (hu : pyStrip u = u)
    (hc : u.head? = some c) : isSpace c = false :=
  pyStrip_head_not (by rw [hu]; exact hc)

theorem canonicalLine_eq (u tp h : Str) :
    canonicalLine u tp h =
      (u ++ ',' :: ((strOf "path=" ++ tp) ++ ',' :: (strOf "hash=" ++ h))) ++ ['\n'] := by
  have h1 : strOf ",path=" = ',' :: strOf "path=" := rfl
  have h2 : strOf ",hash=" = ',' :: strOf "hash=" := rfl
  rw [canonicalLine, h1, h2]
  simp only [List.append_assoc, List.cons_append]

theorem parse_canonical {u tp h : Str}
    (hu1 : pyStrip u = u) (hu2 : u ≠ []) (hu3 : u.head? ≠ some '#') (hu4 : ',' ∉ u)
    (htp : ',' ∉ tp) (hh1 : tokenOk h) (hh2 : h ≠ []) :
    (parse_line (canonicalLine u tp h)).repoUrl = some u ∧
    (parse_line (canonicalLine u tp h)).currentHash = some h := by
  obtain ⟨c0, hc0⟩ : ∃ c, u.head? = some c := by
    cases u with
    | nil => exact absurd rfl hu2
    | cons a t => exact ⟨a, rfl⟩
  have hc0s : isSpace c0 = false := pyStrip_fixed_head hu1 hc0
  obtain ⟨cl, hcl⟩ : ∃ c, h.getLast? = some c := by
    cases hlast : h.getLast? with
    | none => exact absurd (List.getLast?_eq_none_iff.mp hlast) hh2
    | some a => exact ⟨a, rfl⟩
  have hclmem : cl ∈ h := List.mem_of_mem_getLast? hcl
  have hcls : isSpace cl = false := (hh1 cl hclmem).1
  have hclsemi : cl ≠ ';' := (hh1 cl hclmem).2.2
  set pf : Str := strOf "path=" ++ tp with hpf
  set hf : Str := strOf "hash=" ++ h with hhf
  set core : Str := u ++ ',' :: (pf ++ ',' :: hf) with hcore
  have hcanon : canonicalLine u tp h = core ++ ['\n'] := canonicalLine_eq u tp h
  have hcorehead : core.head? = some c0 := by
    rw [hcore, List.head?_append, hc0]
    rfl
  have hcorelast : core.getLast? = some cl := by
    have hsh : core = (u ++ ',' :: (pf ++ ',' :: strOf "hash=")) ++ h := by
      rw [hcore, hhf]
      simp only [List.append_assoc, List.cons_append]
    rw [hsh, List.getLast?_append, hcl]
    rfl
  have hstrip : pyStrip (canonicalLine u tp h) = core := by
    rw [hcanon, pyStrip_append_newline]
    apply pyStrip_noop
    · intro c hc
      rw [hcorehead] at hc
      cases hc
      exact hc0s
    · intro c hc
      rw [hcorelast] at hc
      cases hc
      exact hcls
  have hsemi : rstripSemi core = core := by
    apply rstripSemi_noop
    intro c hc
    rw [hcorelast] at hc
    cases hc
    exact hclsemi
  have hs : rstripSemi (pyStrip (canonicalLine u tp h)) = core := by
    rw [hstrip, hsemi]
  have hcne : core ≠ [] := by
    rw [hcore]
    cases u with
    | nil => exact absurd rfl hu2
    | cons a t => simp
  have hch : core.head? ≠ some '#' := by
    rw [hcorehead]
    intro hco
    apply hu3
    rw [hc0]
    exact hco
  have hpfc : ',' ∉ pf := by
    rw [hpf]
    intro hm
    rcases List.mem_append.mp hm with h1 | h1
    · revert h1
      decide
    · exact htp h1
  have hhfc : ',' ∉ hf := by
    rw [hhf]
    intro hm
    rcases List.mem_append.mp hm with h1 | h1
    · revert h1
      decide
    · exact (hh1 ',' h1).2.1 rfl
  have hsplit : splitOnChar ',' core = [u, pf, hf] := by
    rw [hcore]
    rw [splitOnChar_append_sep (pf ++ ',' :: hf) hu4]
    rw [splitOnChar_append_sep hf hpfc]
    rw [splitOnChar_not_mem hhfc]
  have he := parse_line_entry hs hcne hch hsplit
  have hfold : ([pf, hf].foldl procPart fieldsInit) = (⟨none, some (pyStrip tp), none, some (pyStrip h), false⟩ : Fields) := by
    rw [show ([pf, hf].foldl procPart fieldsInit) =
      procPart (procPart fieldsInit pf) hf by rfl]
    rw [hpf, procPart_path, hhf, procPart_hash]
    rfl
  rw [he, hfold]
  refine ⟨by rw [hu1], ?_⟩
  rw [tokenOk_pyStrip hh1]

/-! ### Lemmas about `buildUpdated`, `rewriteLine`, `pass2`, `parseEntry` -/

theorem buildUpdated_aux (es : List Entry) (d : Str → Option (Str × Str)) (u : Str) :
    (es.foldl
      (fun d e =>
        if e.needsSync then
          fun v => if v = e.repoUrl then some (e.targetPath, e.latestHash) else d v
        else d) d) u =
    match (es.filter (fun e => e.needsSync && decide (e.repoUrl = u))).getLast? with
    | some e => some (e.targetPath, e.latestHash)
    | none => d u := by
  induction es generalizing d with
  | nil => rfl
  | cons a t ih =>
    rw [List.foldl_cons, ih, List.filter_cons]
    by_cases hP : (a.needsSync && decide (a.repoUrl = u)) = true
    · rw [if_pos hP]
      have hns : a.needsSync = true := (Bool.and_eq_true_iff.mp hP).1
      have hur : a.repoUrl = u := of_decide_eq_true (Bool.and_eq_true_iff.mp hP).2
      cases hft : (t.filter (fun e => e.needsSync && decide (e.repoUrl = u))) with
      | nil =>
        simp only [hft, List.getLast?_nil, List.getLast?_singleton]
        rw [if_pos hns]
        rw [if_pos hur.symm]
      | cons b t' =>
        simp only [hft, List.getLast?_cons_cons]
        cases hbl : (b :: t').getLast? with
        | none => simp at hbl
        | some x => rfl
    · rw [if_neg hP]
      have hstep : (if a.needsSync then
          fun v => if v = a.repoUrl then some (a.targetPath, a.latestHash) else d v
        else d) u = d u := by
        by_cases hns : a.needsSync = true
        · rw [if_pos hns]
          have hur : ¬(a.repoUrl = u) := by
            intro hr
            exact hP (by rw [hns, hr]; simp)
          rw [if_neg (fun hv => hur hv.symm)]
        · rw [if_neg hns]
      cases hft : (t.filter (fun e => e.needsSync && decide (e.repoUrl = u))).getLast? with
      | none => simp only [hstep]
      | some b => rfl

theorem buildUpdated_eq (es : List Entry) (u : Str) :
    buildUpdated es u =
      ((es.filter (fun e => e.needsSync && decide (e.repoUrl = u))).getLast?).map
        (fun e => (e.targetPath, e.latestHash)) := by
  unfold buildUpdated
  rw [buildUpdated_aux]
  cases (es.filter (fun e => e.needsSync && decide (e.repoUrl = u))).getLast? with
  | none => rfl
  | some e => rfl

theorem buildUpdated_mem {es : List Entry} {u : Str} {v : Str × Str}
    (h : buildUpdated es u = some v) :
    ∃ e ∈ es, e.needsSync = true ∧ e.repoUrl = u ∧ v = (e.targetPath, e.latestHash) := by
  rw [buildUpdated_eq] at h
  cases hft : (es.filter (fun e => e.needsSync && decide (e.repoUrl = u))).getLast? with
  | none => rw [hft] at h; cases h
  | some e =>
    rw [hft] at h
    have hmem : e ∈ es.filter (fun e => e.needsSync && decide (e.repoUrl = u)) :=
      List.mem_of_mem_getLast? hft
    have := List.mem_filter.mp hmem
    refine ⟨e, this.1, (Bool.and_eq_true_iff.mp this.2).1,
      of_decide_eq_true (Bool.and_eq_true_iff.mp this.2).2, ?_⟩
    rw [Option.map_some'] at h
    injection h with h
    exact h.symm

theorem buildUpdated_isSome {es : List Entry} {e : Entry}
    (he : e ∈ es) (hn : e.needsSync = true) : buildUpdated es e.repoUrl ≠ none := by
  rw [buildUpdated_eq]
  have hmem : e ∈ es.filter (fun x => x.needsSync && decide (x.repoUrl = e.repoUrl)) :=
    List.mem_filter.mpr ⟨he, by rw [hn]; simp⟩
  cases hft : (es.filter (fun x => x.needsSync && decide (x.repoUrl = e.repoUrl))).getLast? with
  | none =>
    exfalso
    rw [List.getLast?_eq_none_iff] at hft
    rw [hft] at hmem
    cases hmem
  | some b => simp

theorem buildUpdated_none_of_no_sync {es : List Entry}
    (h : ∀ e ∈ es, e.needsSync = false) (u : Str) : buildUpdated es u = none := by
  rw [buildUpdated_eq]
  have : es.filter (fun e => e.needsSync && decide (e.repoUrl = u)) = [] := by
    rw [List.filter_eq_nil_iff]
    intro e he
    rw [h e he]
    simp
  rw [this]
  rfl

theorem rewriteLine_blank {upd : Str → Option (Str × Str)} {line : Str}
    (h : pyStrip line = [] ∨ (pyStrip line).head? = some '#') :
    rewriteLine upd line = line := by
  simp only [rewriteLine]
  rcases h with h | h
  · rw [if_pos h]
  · by_cases h0 : pyStrip line = []
    · rw [if_pos h0]
    · rw [if_neg h0, if_pos h]

theorem rewriteLine_canonical {upd : Str → Option (Str × Str)} {line u tp hsh : Str}
    (hp : (parse_line line).repoUrl = some u) (hu : u ≠ [])
    (hupd : upd u = some (tp, hsh)) :
    rewriteLine upd line = canonicalLine u tp hsh := by
  have hb := parse_some_not_blank hp
  simp only [rewriteLine]
  rw [if_neg hb.1, if_neg hb.2, hp]
  show (if u = [] then line else
    match upd u with
    | none => line
    | some v => canonicalLine u v.1 v.2) = canonicalLine u tp hsh
  rw [if_neg hu, hupd]

theorem rewriteLine_verbatim {upd : Str → Option (Str × Str)} {line u : Str}
    (hp : (parse_line line).repoUrl = some u) (hupd : upd u = none) :
    rewriteLine upd line = line := by
  have hb := parse_some_not_blank hp
  simp only [rewriteLine]
  rw [if_neg hb.1, if_neg hb.2, hp]
  show (if u = [] then line else
    match upd u with
    | none => line
    | some v => canonicalLine u v.1 v.2) = line
  by_cases hu : u = []
  · rw [if_pos hu]
  · rw [if_neg hu, hupd]

theorem rewriteLine_cases (upd : Str → Option (Str × Str)) (line : Str) :
    (rewriteLine upd line = line ∧
      ∀ u, (parse_line line).repoUrl = some u → u ≠ [] → upd u = none) ∨
    (∃ u v, (parse_line line).repoUrl = some u ∧ u ≠ [] ∧ upd u = some v ∧
      rewriteLine upd line = canonicalLine u v.1 v.2) := by
  by_cases hb : pyStrip line = [] ∨ (pyStrip line).head? = some '#'
  · left
    refine ⟨rewriteLine_blank hb, fun u hpu _ => ?_⟩
    exfalso
    have := parse_some_not_blank hpu
    rcases hb with h | h
    · exact this.1 h
    · exact this.2 h
  · cases hru : (parse_line line).repoUrl with
    | none =>
      left
      push_neg at hb
      refine ⟨?_, fun u hpu _ => Option.noConfusion hpu⟩
      simp only [rewriteLine]
      rw [if_neg hb.1, if_neg hb.2, hru]
    | some u =>
      by_cases hu : u = []
      · left
        push_neg at hb
        refine ⟨?_, fun u' hpu' hne' => ?_⟩
        · simp only [rewriteLine]
          rw [if_neg hb.1, if_neg hb.2, hru]
          show (if u = [] then line else
            match upd u with
            | none => line
            | some v => canonicalLine u v.1 v.2) = line
          rw [if_pos hu]
        · injection hpu' with hv
          exact absurd (hv ▸ hu) hne'
      · cases hupd : upd u with
        | none =>
          left
          refine ⟨rewriteLine_verbatim hru hupd, fun u' hpu' _ => ?_⟩
          injection hpu' with hv
          rw [← hv]
          exact hupd
        | some v =>
          right
          exact ⟨u, v, rfl, hu, hupd, rewriteLine_canonical hru hu hupd⟩

theorem pass2_no_sync_aux (o : Oracles) :
    ∀ (es : List Entry) (init : List Event × List Str),
      (∀ e ∈ es, e.needsSync = false) →
      (es.foldl
        (fun acc e =>
          if e.needsSync then
            let r := materializeEntry o e
            (acc.1 ++ r.1, acc.2 ++ (match r.2 with | some q => [q] | none => []))
          else acc) init) = init := by
  intro es
  induction es with
  | nil => intro init _; rfl
  | cons a t ih =>
    intro init h
    rw [List.foldl_cons]
    have ha : a.needsSync = false := h a (List.mem_cons_self a t)
    rw [if_neg (by rw [ha]; exact Bool.false_ne_true)]
    exact ih init (fun e he => h e (List.mem_cons_of_mem a he))

theorem pass2_no_sync {o : Oracles} {es : List Entry}
    (h : ∀ e ∈ es, e.needsSync = false) : pass2 o es = ([], []) :=
  pass2_no_sync_aux o es ([], []) h

theorem parseEntry_elim {probe : Str → Option Str} {line : Str} {e : Entry}
    (h : parseEntry probe line = some e) :
    (parse_line line).repoUrl = some e.repoUrl ∧ e.repoUrl ≠ [] ∧
      probe e.repoUrl = some e.latestHash ∧ e.latestHash ≠ [] ∧
      e.subDir = (parse_line line).subDir ∧
      e.targetPath = (parse_line line).targetPath.getD [] ∧
      e.depth = (parse_line line).depth ∧
      e.currentHash = (parse_line line).currentHash ∧
      e.needsSync = (!oTruthy (parse_line line).currentHash ||
        decide ((parse_line line).currentHash ≠ some e.latestHash)) := by
  simp only [parseEntry] at h
  cases hru : (parse_line line).repoUrl with
  | none => simp [hru] at h
  | some u =>
    simp only [hru] at h
    by_cases hu : u = []
    · rw [if_pos hu] at h; cases h
    · rw [if_neg hu] at h
      cases hpr : probe u with
      | none => simp [hpr] at h
      | some latest =>
        simp only [hpr] at h
        by_cases hl : latest = []
        · rw [if_pos hl] at h; cases h
        · rw [if_neg hl] at h
          injection h with h
          subst h
          exact ⟨rfl, hu, hpr, hl, rfl, rfl, rfl, rfl, rfl⟩

theorem parseEntry_none_of_probe {probe : Str → Option Str} {line u : Str}
    (hp : (parse_line line).repoUrl = some u) (hu : u ≠ [])
    (hprobe : probe u = none ∨ probe u = some []) : parseEntry probe line = none := by
  simp only [parseEntry, hp]
  rw [if_neg hu]
  rcases hprobe with h | h
  · rw [h]
  · rw [h]
    simp

theorem eraseIdx_map {α β : Type} (f : α → β) :
    ∀ (l : List α) (i : Nat), (l.map f).eraseIdx i = (l.eraseIdx i).map f := by
  intro l
  induction l with
  | nil => intro i; rfl
  | cons a t ih =>
    intro i
    cases i with
    | zero => rfl
    | succ j =>
      simp only [List.map_cons, List.eraseIdx_cons_succ]
      rw [ih]

theorem filterMap_eraseIdx_none {α β : Type} (f : α → Option β) :
    ∀ (l : List α) (i : Nat) (x : α), l[i]? = some x → f x = none →
      l.filterMap f = (l.eraseIdx i).filterMap f := by
  intro l
  induction l with
  | nil => intro i x hx _; simp at hx
  | cons a t ih =>
    intro i x hx hf
    cases i with
    | zero =>
      simp only [List.getElem?_cons_zero, Option.some.injEq] at hx
      subst hx
      simp only [List.eraseIdx_cons_zero, List.filterMap_cons, hf]
    | succ j =>
      simp only [List.getElem?_cons_succ] at hx
      simp only [List.eraseIdx_cons_succ, List.filterMap_cons]
      rw [ih j x hx hf]

/-! ### Run-level unfolding lemmas -/

theorem sync_entries_eq (o : Oracles) (lines : List Str) :
    (sync_repositories o lines).entries = lines.filterMap (parseEntry o.probe) := rfl

theorem sync_updatedAt_eq (o : Oracles) (lines : List Str) :
    (sync_repositories o lines).updatedAt =
      buildUpdated (lines.filterMap (parseEntry o.probe)) := rfl

theorem sync_manifestOut_eq (o : Oracles) (lines : List Str) :
    (sync_repositories o lines).manifestOut =
      lines.map (rewriteLine (buildUpdated (lines.filterMap (parseEntry o.probe)))) := rfl

theorem sync_syncedPaths_eq (o : Oracles) (lines : List Str) :
    (sync_repositories o lines).syncedPaths =
      (pass2 o (lines.filterMap (parseEntry o.probe))).2 := rfl

theorem sync_events_eq (o : Oracles) (lines : List Str) :
    (sync_repositories o lines).events =
      (pass2 o (lines.filterMap (parseEntry o.probe))).1 := rfl

theorem pyStrip_fixed_getLast {u : Str} {c : Char} (hu : pyStrip u = u)
    (hc : u.getLast? = some c) : isSpace c = false :=
  pyStrip_getLast_not (by rw [hu]; exact hc)

theorem oTruthy_some_of_ne {p : Str} (h : p ≠ []) : oTruthy (some p) = true := by
  cases p with
  | nil => exact absurd rfl h
  | cons a t => rfl

/-! ### Claim C6 -/

/-- C6: every manifest line that is blank or a comment after trimming is
written back byte-for-byte at its original position by the state writer,
the rewritten manifest has exactly one output line per input line, and
output position `j` is always produced from input position `j` (entry
lines are processed and written back in original file order). -/
theorem c6_non_entry_lines_preserved (lines : List Str)
    (upd : Str → Option (Str × Str)) (i : Nat) (line : Str)
    (h1 : lines[i]? = some line)
    (h2 : pyStrip line = [] ∨ (pyStrip line).head? = some '#') :
    (update_packages_file lines upd).length = lines.length ∧
    (update_packages_file lines upd)[i]? = some line ∧
    (∀ j : Nat, (update_packages_file lines upd)[j]? =
      (lines[j]?).map (rewriteLine upd)) := by
  refine ⟨by simp [update_packages_file], ?_, fun j => List.getElem?_map ..⟩
  rw [update_packages_file, List.getElem?_map, h1, Option.map_some',
    rewriteLine_blank h2]

theorem c6_non_entry_lines_preserved_witness :
    (([strOf "# note\n", strOf "u,hash=a\n"] : List Str)[0]? = some (strOf "# note\n")) ∧
    (update_packages_file [strOf "# note\n", strOf "u,hash=a\n"]
        (fun _ => some (strOf "t", strOf "v"))).length = 2 ∧
    (update_packages_file [strOf "# note\n", strOf "u,hash=a\n"]
        (fun _ => some (strOf "t", strOf "v")))[0]? = some (strOf "# note\n") ∧
    (∀ j : Nat, (update_packages_file [strOf "# note\n", strOf "u,hash=a\n"]
        (fun _ => some (strOf "t", strOf "v")))[j]? =
      (([strOf "# note\n", strOf "u,hash=a\n"] : List Str)[j]?).map
        (rewriteLine (fun _ => some (strOf "t", strOf "v")))) :=
  ⟨by decide,
    c6_non_entry_lines_preserved [strOf "# note\n", strOf "u,hash=a\n"]
      (fun _ => some (strOf "t", strOf "v")) 0 (strOf "# note\n")
      (by decide) (by decide)⟩

/-! ### Claim C8 -/

/-- C8: when the resolved absolute destination equals the absolute path of
the working directory, the clean step performs only the skip (no recursive
tree removal and no file removal happens anywhere in the entry), and
processing of the entry continues: the very next recorded action is the
clone attempt. -/
theorem c8_cwd_protection (o : Oracles) (e : Entry)
    (h : o.abspath e.targetPath = o.abspath (strOf ".")) :
    clean_existing_files o e.targetPath = [Event.cleanSkipCwd e.targetPath] ∧
    (∀ p, Event.removeTree p ∉ (materializeEntry o e).1) ∧
    (∀ p, Event.removeFile p ∉ (materializeEntry o e).1) ∧
    (materializeEntry o e).1.head? = some (Event.cleanSkipCwd e.targetPath) ∧
    (materializeEntry o e).1[1]? = some (cloneAttempt e) := by
  have hc : clean_existing_files o e.targetPath = [Event.cleanSkipCwd e.targetPath] := by
    unfold clean_existing_files
    rw [if_pos (Or.inr h)]
  have hshape : ∃ rest : List Event,
      (materializeEntry o e).1 =
        Event.cleanSkipCwd e.targetPath :: cloneAttempt e :: rest ∧
      (∀ p, Event.removeTree p ∉ rest) ∧ (∀ p, Event.removeFile p ∉ rest) := by
    simp only [materializeEntry, hc]
    split
    · split
      · split
        · exact ⟨_, rfl, by intro p; simp, by intro p; simp⟩
        · exact ⟨_, rfl, by intro p; simp, by intro p; simp⟩
      · split
        · exact ⟨_, rfl, by intro p; simp, by intro p; simp⟩
        · exact ⟨_, rfl, by intro p; simp, by intro p; simp⟩
    · exact ⟨_, rfl, by intro p; simp, by intro p; simp⟩
  obtain ⟨rest, hr, hrt, hrf⟩ := hshape
  refine ⟨hc, ?_, ?_, by rw [hr]; rfl, by rw [hr]; simp⟩
  · intro p
    rw [hr]
    intro hm
    rcases List.mem_cons.mp hm with h1 | hm
    · cases h1
    rcases List.mem_cons.mp hm with h2 | hm
    · unfold cloneAttempt at h2
      split at h2 <;> cases h2
    · exact hrt p hm
  · intro p
    rw [hr]
    intro hm
    rcases List.mem_cons.mp hm with h1 | hm
    · cases h1
    rcases List.mem_cons.mp hm with h2 | hm
    · unfold cloneAttempt at h2
      split at h2 <;> cases h2
    · exact hrf p hm

/-- Oracles for the C8 witness: identity path resolution, no filesystem
content, clone fails. -/
def c8Oracles : Oracles :=
  ⟨fun _ => none, id, fun _ => false, fun _ => false, fun _ => false,
    fun _ _ => true, id⟩

/-- Entry for the C8 witness: destination is the working directory. -/
def c8Entry : Entry :=
  ⟨strOf "u", none, strOf ".", none, none, strOf "h", true⟩

theorem c8_cwd_protection_witness :
    (c8Oracles.abspath c8Entry.targetPath = c8Oracles.abspath (strOf ".")) ∧
    (clean_existing_files c8Oracles c8Entry.targetPath =
      [Event.cleanSkipCwd c8Entry.targetPath] ∧
    (∀ p, Event.removeTree p ∉ (materializeEntry c8Oracles c8Entry).1) ∧
    (∀ p, Event.removeFile p ∉ (materializeEntry c8Oracles c8Entry).1) ∧
    (materializeEntry c8Oracles c8Entry).1.head? =
      some (Event.cleanSkipCwd c8Entry.targetPath) ∧
    (materializeEntry c8Oracles c8Entry).1[1]? = some (cloneAttempt c8Entry)) :=
  ⟨rfl, c8_cwd_protection c8Oracles c8Entry rfl⟩

/-! ### Claim C10 -/

/-- C10: a manifest entry carrying `depth=0` parses with depth value `0`
and without the invalid-depth diagnostic, and the clone command issued for
a parsed depth of `0` is the full (unbounded) clone: the shallow-clone
command is issued exactly for a present nonzero depth. -/
theorem c10_depth_zero_full_clone (u : Str) (hu1 : pyStrip u = u) (hu2 : u ≠ [])
    (hu3 : u.head? ≠ some '#') (hu4 : ',' ∉ u) :
    (parse_line (u ++ ',' :: strOf "depth=0")).depth = some 0 ∧
    (parse_line (u ++ ',' :: strOf "depth=0")).depthWarn = false ∧
    (∀ e : Entry, e.depth = some 0 →
      cloneAttempt e = Event.cloneFull e.repoUrl (tmpDirOf e.repoUrl)) ∧
    (∀ e : Entry, (∃ d tmp, cloneAttempt e = Event.cloneShallow e.repoUrl d tmp) ↔
      ∃ d, e.depth = some d ∧ d ≠ 0) := by
  obtain ⟨c0, hc0⟩ : ∃ c, u.head? = some c := by
    cases u with
    | nil => exact absurd rfl hu2
    | cons a t => exact ⟨a, rfl⟩
  have hc0s : isSpace c0 = false := pyStrip_fixed_head hu1 hc0
  have hline : u ++ ',' :: strOf "depth=0" ≠ [] := by
    cases u with
    | nil => exact absurd rfl hu2
    | cons a t => simp
  have hhead : (u ++ ',' :: strOf "depth=0").head? = some c0 := by
    rw [List.head?_append, hc0]
    rfl
  have hlast : (u ++ ',' :: strOf "depth=0").getLast? = some '0' := by
    rw [List.getLast?_append]
    rfl
  have hstrip : pyStrip (u ++ ',' :: strOf "depth=0") = u ++ ',' :: strOf "depth=0" := by
    apply pyStrip_noop
    · intro c hc
      rw [hhead] at hc
      cases hc
      exact hc0s
    · intro c hc
      rw [hlast] at hc
      cases hc
      decide
  have hsemi : rstripSemi (u ++ ',' :: strOf "depth=0") = u ++ ',' :: strOf "depth=0" := by
    apply rstripSemi_noop
    intro c hc
    rw [hlast] at hc
    cases hc
    decide
  have hch : (u ++ ',' :: strOf "depth=0").head? ≠ some '#' := by
    rw [hhead]
    intro hcon
    apply hu3
    rw [hc0]
    exact hcon
  have hsplit : splitOnChar ',' (u ++ ',' :: strOf "depth=0") = [u, strOf "depth=0"] := by
    rw [splitOnChar_append_sep (strOf "depth=0") hu4]
    rw [splitOnChar_not_mem (by decide : ',' ∉ strOf "depth=0")]
  have he := parse_line_entry (by rw [hstrip, hsemi]) hline hch hsplit
  have hfold : ([strOf "depth=0"].foldl procPart fieldsInit) =
      (⟨none, none, some 0, none, false⟩ : Fields) := by
    rw [show ([strOf "depth=0"].foldl procPart fieldsInit) =
      procPart fieldsInit (strOf "depth=0") by rfl]
    rw [procPart_depth_zero]
    rfl
  refine ⟨by rw [he, hfold], by rw [he, hfold], ?_, ?_⟩
  · intro e hd
    unfold cloneAttempt
    rw [hd]
    rfl
  · intro e
    constructor
    · rintro ⟨d, tmp, hct⟩
      unfold cloneAttempt at hct
      by_cases hdt : depthTruthy e.depth = true
      · unfold depthTruthy at hdt
        cases hde : e.depth with
        | none => rw [hde] at hdt; cases hdt
        | some d0 =>
          rw [hde] at hdt
          exact ⟨d0, rfl, of_decide_eq_true hdt⟩
      · rw [if_neg hdt] at hct
        cases hct
    · rintro ⟨d, hd, hdne⟩
      have hdt : depthTruthy e.depth = true := by
        rw [hd]
        unfold depthTruthy
        exact decide_eq_true hdne
      unfold cloneAttempt
      rw [if_pos hdt, hd]
      exact ⟨d, tmpDirOf e.repoUrl, rfl⟩

theorem c10_depth_zero_full_clone_witness :
    (',' ∉ strOf "url") ∧
    (parse_line (strOf "url" ++ ',' :: strOf "depth=0")).depth = some 0 ∧
    (parse_line (strOf "url" ++ ',' :: strOf "depth=0")).depthWarn = false ∧
    (∀ e : Entry, e.depth = some 0 →
      cloneAttempt e = Event.cloneFull e.repoUrl (tmpDirOf e.repoUrl)) ∧
    (∀ e : Entry, (∃ d tmp, cloneAttempt e = Event.cloneShallow e.repoUrl d tmp) ↔
      ∃ d, e.depth = some d ∧ d ≠ 0) :=
  ⟨by decide,
    c10_depth_zero_full_clone (strOf "url") (by decide) (by decide)
      (by decide) (by decide)⟩

/-! ### Claim C1 -/

/-- Oracles for the C1 evaluation: probing `repoA` yields `newh`, the
clone subprocess fails. -/
def c1Oracles : Oracles :=
  ⟨fun u => if u = strOf "repoA" then some (strOf "newh") else none,
    id, fun _ => false, fun _ => false, fun _ => false, fun _ _ => true, id⟩

/-- The C1 manifest: a single stale entry. -/
def c1Lines : List Str := [strOf "repoA,hash=old\n"]

/-- C1: evaluation at the failing input. The entry needs synchronization,
its clone fails (the trace records the failed attempt and nothing is
synchronized), yet the entry is in the updated set and its manifest line
is rewritten to the canonical line with the new revision — contradicting
the claim that the updated set contains exactly the entries whose
materialization completed through the success-recording step. -/
theorem c1_updated_set_ignores_materialization_failure :
    (sync_repositories c1Oracles c1Lines).manifestOut =
      [strOf "repoA,path=repoA,hash=newh\n"] ∧
    (sync_repositories c1Oracles c1Lines).manifestOut ≠ c1Lines ∧
    Event.cloneFail (strOf "repoA") ∈ (sync_repositories c1Oracles c1Lines).events ∧
    (sync_repositories c1Oracles c1Lines).syncedPaths = [] ∧
    (sync_repositories c1Oracles c1Lines).updatedAt (strOf "repoA") =
      some (strOf "repoA", strOf "newh") := by
  refine ⟨by decide, by decide, by decide, by decide, by decide⟩

/-! ### Claim C2 -/

/-- C2 counterexample: for `path=vendor/mydir` and subpath `sub/dir` the
last path components differ (`mydir` vs `dir`), so the claim demands the
appended form `vendor/mydir/dir`; the code instead keeps `vendor/mydir`
as-is because the string ends with `dir`. -/
theorem c2_endswith_counterexample :
    (parse_line (strOf "u,sub/dir,path=vendor/mydir")).targetPath =
      some (strOf "vendor/mydir") ∧
    basename (strOf "vendor/mydir") ≠ basename (strOf "sub/dir") ∧
    strOf "vendor/mydir" ≠ joinPath (strOf "vendor/mydir") (basename (strOf "sub/dir")) := by
  refine ⟨by decide, by decide, by decide⟩

/-- C2 (amended): for every manifest entry giving both an explicit path
and a subpath, the destination is the explicit path as-is exactly when the
path ends — as a plain string suffix — with the subpath's last path
component, and otherwise the subpath's last component is appended. -/
theorem c2_destination_endswith_rule (u sub p : Str)
    (hu1 : pyStrip u = u) (hu2 : u ≠ []) (hu3 : u.head? ≠ some '#') (hu4 : ',' ∉ u)
    (hs1 : pyStrip sub = sub) (hs2 : sub ≠ []) (hs3 : ',' ∉ sub) (hs4 : '=' ∉ sub)
    (hp1 : pyStrip p = p) (hp2 : p ≠ []) (hp3 : ',' ∉ p) (hp4 : ';' ∉ p) :
    (parse_line (u ++ ',' :: (sub ++ ',' :: (strOf "path=" ++ p)))).subDir = some sub ∧
    (parse_line (u ++ ',' :: (sub ++ ',' :: (strOf "path=" ++ p)))).targetPath =
      some (if (basename sub).isSuffixOf p then p else joinPath p (basename sub)) := by
  obtain ⟨c0, hc0⟩ : ∃ c, u.head? = some c := by
    cases u with
    | nil => exact absurd rfl hu2
    | cons a t => exact ⟨a, rfl⟩
  have hc0s : isSpace c0 = false := pyStrip_fixed_head hu1 hc0
  obtain ⟨cp, hcp⟩ : ∃ c, p.getLast? = some c := by
    cases hl : p.getLast? with
    | none => exact absurd (List.getLast?_eq_none_iff.mp hl) hp2
    | some a => exact ⟨a, rfl⟩
  have hcps : isSpace cp = false := pyStrip_fixed_getLast hp1 hcp
  have hcpsemi : cp ≠ ';' := fun he =>
    hp4 (he ▸ List.mem_of_mem_getLast? hcp)
  set line : Str := u ++ ',' :: (sub ++ ',' :: (strOf "path=" ++ p)) with hlinedef
  have hlinene : line ≠ [] := by
    rw [hlinedef]
    cases u with
    | nil => exact absurd rfl hu2
    | cons a t => simp
  have hhead : line.head? = some c0 := by
    rw [hlinedef, List.head?_append, hc0]
    rfl
  have hlast : line.getLast? = some cp := by
    have hsh : line = (u ++ ',' :: (sub ++ ',' :: strOf "path=")) ++ p := by
      rw [hlinedef]
      simp only [List.append_assoc, List.cons_append]
    rw [hsh, List.getLast?_append, hcp]
    rfl
  have hstrip : pyStrip line = line := by
    apply pyStrip_noop
    · intro c hc
      rw [hhead] at hc
      cases hc
      exact hc0s
    · intro c hc
      rw [hlast] at hc
      cases hc
      exact hcps
  have hsemi : rstripSemi line = line := by
    apply rstripSemi_noop
    intro c hc
    rw [hlast] at hc
    cases hc
    exact hcpsemi
  have hch : line.head? ≠ some '#' := by
    rw [hhead]
    intro hcon
    apply hu3
    rw [hc0]
    exact hcon
  have hpfc : ',' ∉ strOf "path=" ++ p := by
    intro hm
    rcases List.mem_append.mp hm with h1 | h1
    · revert h1
      decide
    · exact hp3 h1
  have hsplit : splitOnChar ',' line = [u, sub, strOf "path=" ++ p] := by
    rw [hlinedef]
    rw [splitOnChar_append_sep (sub ++ ',' :: (strOf "path=" ++ p)) hu4]
    rw [splitOnChar_append_sep (strOf "path=" ++ p) hs3]
    rw [splitOnChar_not_mem hpfc]
  have he := parse_line_entry (by rw [hstrip, hsemi]) hlinene hch hsplit
  have hfold : ([sub, strOf "path=" ++ p].foldl procPart fieldsInit) =
      (⟨some sub, some p, none, none, false⟩ : Fields) := by
    rw [show ([sub, strOf "path=" ++ p].foldl procPart fieldsInit) =
      procPart (procPart fieldsInit sub) (strOf "path=" ++ p) by rfl]
    rw [procPart_subdir hs1 hs4, procPart_path, hp1]
    rfl
  have hderive : deriveTarget (some p) (some sub) (pyStrip u) =
      if (basename sub).isSuffixOf p then p else joinPath p (basename sub) := by
    simp only [deriveTarget]
    rw [if_pos (by rw [oTruthy_some_of_ne hp2, oTruthy_some_of_ne hs2]; rfl)]
    rfl
  rw [he, hfold]
  exact ⟨rfl, by rw [show (⟨some sub, some p, none, none, false⟩ : Fields).targetPath = some p from rfl,
    show (⟨some sub, some p, none, none, false⟩ : Fields).subDir = some sub from rfl, hderive]⟩

theorem c2_destination_endswith_rule_witness :
    (',' ∉ strOf "url") ∧
    (parse_line (strOf "url" ++ ',' :: (strOf "a/b" ++ ',' :: (strOf "path=" ++ strOf "c")))).subDir = some (strOf "a/b") ∧
    (parse_line (strOf "url" ++ ',' :: (strOf "a/b" ++ ',' :: (strOf "path=" ++ strOf "c")))).targetPath =
      some (if (basename (strOf "a/b")).isSuffixOf (strOf "c") then strOf "c"
        else joinPath (strOf "c") (basename (strOf "a/b"))) :=
  ⟨by decide,
    c2_destination_endswith_rule (strOf "url") (strOf "a/b") (strOf "c")
      (by decide) (by decide) (by decide) (by decide)
      (by decide) (by decide) (by decide) (by decide)
      (by decide) (by decide) (by decide) (by decide)⟩

/-! ### Claim C7 -/

/-- C7 counterexample: for location `https://x/my.git.repo` the basename
`my.git.repo` carries no trailing `.git` suffix, so the claim demands the
destination `my.git.repo`; the code's `replace` removes the interior
`.git` occurrence and produces `my.repo`. -/
theorem c7_replace_all_counterexample :
    (parse_line (strOf "https://x/my.git.repo")).targetPath = some (strOf "my.repo") ∧
    ¬ (strOf ".git").isSuffixOf (basename (strOf "https://x/my.git.repo")) ∧
    strOf "my.repo" ≠ basename (strOf "https://x/my.git.repo") := by
  refine ⟨by decide, by decide, by decide⟩

/-- C7 (amended): for every manifest entry giving neither an explicit path
nor a subpath, the destination is the last path component of the location
with every occurrence of the substring `.git` removed (not merely a
trailing suffix). -/
theorem c7_destination_replace_all (u : Str)
    (hu1 : pyStrip u = u) (hu2 : u ≠ []) (hu3 : u.head? ≠ some '#')
    (hu4 : ',' ∉ u) (hu5 : ';' ∉ u) :
    (parse_line u).repoUrl = some u ∧
    (parse_line u).targetPath = some (removeDotGit (basename u)) := by
  have hsemi : rstripSemi u = u := by
    apply rstripSemi_noop
    intro c hc
    exact fun he => hu5 (he ▸ List.mem_of_mem_getLast? hc)
  have hsplit : splitOnChar ',' u = [u] := splitOnChar_not_mem hu4
  have he := parse_line_entry (by rw [hu1, hsemi]) hu2 hu3 hsplit
  have hfold : (([] : List Str).foldl procPart fieldsInit) = fieldsInit := rfl
  rw [he, hfold]
  refine ⟨by rw [hu1], ?_⟩
  rw [show (fieldsInit.targetPath) = none from rfl, show (fieldsInit.subDir) = none from rfl]
  rw [show deriveTarget none none (pyStrip u) = removeDotGit (basename (pyStrip u)) from rfl]
  rw [hu1]

theorem c7_destination_replace_all_witness :
    (',' ∉ strOf "https://x/repo.git") ∧
    (parse_line (strOf "https://x/repo.git")).repoUrl = some (strOf "https://x/repo.git") ∧
    (parse_line (strOf "https://x/repo.git")).targetPath =
      some (removeDotGit (basename (strOf "https://x/repo.git"))) :=
  ⟨by decide,
    c7_destination_replace_all (strOf "https://x/repo.git")
      (by decide) (by decide) (by decide) (by decide) (by decide)⟩

/-! ### Claim C5 -/

/-- C5: for every entry in the updated set, the state writer replaces its
manifest line with exactly the canonical regenerated line
`location,path=<destination>,hash=<latestRevision>` followed by a newline,
which carries no other annotation of the original line. -/
theorem c5_canonical_rewrite (o : Oracles) (lines : List Str) (u tp h : Str)
    (i : Nat) (line : Str)
    (hupd : (sync_repositories o lines).updatedAt u = some (tp, h))
    (hline : lines[i]? = some line)
    (hu : (parse_line line).repoUrl = some u) (hne : u ≠ []) :
    (sync_repositories o lines).manifestOut[i]? = some (canonicalLine u tp h) ∧
    canonicalLine u tp h =
      u ++ strOf ",path=" ++ tp ++ strOf ",hash=" ++ h ++ ['\n'] := by
  rw [sync_updatedAt_eq] at hupd
  refine ⟨?_, rfl⟩
  rw [sync_manifestOut_eq, List.getElem?_map, hline, Option.map_some',
    rewriteLine_canonical hu hne hupd]

/-- Oracles for the C5 witness: probing `r1` yields `h2`, everything else
succeeds. -/
def c5Oracles : Oracles :=
  ⟨fun u => if u = strOf "r1" then some (strOf "h2") else none,
    id, fun _ => false, fun _ => false, fun _ => true, fun _ _ => true, id⟩

/-- The C5 manifest: one stale entry with a subpath and a depth that the
canonical rewrite drops. -/
def c5Lines : List Str := [strOf "r1,sub/dir,depth=3,hash=h1\n"]

theorem c5_canonical_rewrite_witness :
    ((sync_repositories c5Oracles c5Lines).updatedAt (strOf "r1") =
      some (strOf "dir", strOf "h2")) ∧
    (sync_repositories c5Oracles c5Lines).manifestOut[0]? =
      some (canonicalLine (strOf "r1") (strOf "dir") (strOf "h2")) ∧
    canonicalLine (strOf "r1") (strOf "dir") (strOf "h2") =
      strOf "r1" ++ strOf ",path=" ++ strOf "dir" ++ strOf ",hash=" ++
        strOf "h2" ++ ['\n'] :=
  ⟨by decide,
    c5_canonical_rewrite c5Oracles c5Lines (strOf "r1") (strOf "dir") (strOf "h2")
      0 (strOf "r1,sub/dir,depth=3,hash=h1\n")
      (by decide) (by decide) (by decide) (by decide)⟩

/-! ### Claim C9 -/

/-- Oracles for the C9 counterexample: probing `u` yields `new`. -/
def c9Oracles : Oracles :=
  ⟨fun u => if u = strOf "u" then some (strOf "new") else none,
    id, fun _ => false, fun _ => false, fun _ => true, fun _ _ => true, id⟩

/-- Two entries sharing location `u`: the first is stale, the second is
already at the probed revision. -/
def c9Lines : List Str :=
  [strOf "u,path=a,hash=old\n", strOf "u,path=b,hash=new\n"]

/-- C9 counterexample: the last-parsed entry of location `u` has
destination `b`, yet both rewritten lines carry destination `a` (the
last-parsed entry of that location that needed synchronization), refuting
the claim that the shared canonical line comes from the last-parsed entry
of the location. -/
theorem c9_last_parsed_counterexample :
    (sync_repositories c9Oracles c9Lines).manifestOut =
      [strOf "u,path=a,hash=new\n", strOf "u,path=a,hash=new\n"] ∧
    ((sync_repositories c9Oracles c9Lines).entries.map
      (fun e => e.targetPath)).getLast? = some (strOf "b") ∧
    strOf "u,path=a,hash=new\n" ≠ strOf "u,path=b,hash=new\n" := by
  refine ⟨by decide, by decide, by decide⟩

/-- C9 (amended): when entries share a location and at least one of them
needs synchronization, every entry line of that location is replaced by
the same canonical line, whose destination and revision come from the
last-parsed entry of that location among those that needed
synchronization. -/
theorem c9_shared_location_rewrite (o : Oracles) (lines : List Str) (u : Str)
    (el : Entry) (i : Nat) (line : Str)
    (hlast : ((sync_repositories o lines).entries.filter
      (fun e => e.needsSync && decide (e.repoUrl = u))).getLast? = some el)
    (hline : lines[i]? = some line)
    (hu : (parse_line line).repoUrl = some u) (hne : u ≠ []) :
    (sync_repositories o lines).manifestOut[i]? =
      some (canonicalLine u el.targetPath el.latestHash) := by
  rw [sync_entries_eq] at hlast
  have hupd : buildUpdated (lines.filterMap (parseEntry o.probe)) u =
      some (el.targetPath, el.latestHash) := by
    rw [buildUpdated_eq, hlast]
    rfl
  rw [sync_manifestOut_eq, List.getElem?_map, hline, Option.map_some',
    rewriteLine_canonical hu hne hupd]

theorem c9_shared_location_rewrite_witness :
    (((sync_repositories c9Oracles c9Lines).entries.filter
      (fun e => e.needsSync && decide (e.repoUrl = strOf "u"))).getLast? =
      some (⟨strOf "u", none, strOf "a", none, some (strOf "old"), strOf "new", true⟩ : Entry)) ∧
    (sync_repositories c9Oracles c9Lines).manifestOut[1]? =
      some (canonicalLine (strOf "u")
        (Entry.targetPath ⟨strOf "u", none, strOf "a", none, some (strOf "old"), strOf "new", true⟩)
        (Entry.latestHash ⟨strOf "u", none, strOf "a", none, some (strOf "old"), strOf "new", true⟩)) :=
  ⟨by decide,
    c9_shared_location_rewrite c9Oracles c9Lines (strOf "u")
      ⟨strOf "u", none, strOf "a", none, some (strOf "old"), strOf "new", true⟩
      1 (strOf "u,path=b,hash=new\n")
      (by decide) (by decide) (by decide) (by decide)⟩

/-! ### Claim C3 -/

/-- C3: an entry whose remote probe fails (or returns empty output)
contributes nothing to the run — its manifest line is written back
byte-identical, and the probed entries, the event trace and the
synced-paths list are exactly those of the same run with the failing line
removed, so every other entry is still probed, evaluated and, where
stale, synchronized. -/
theorem c3_probe_failure_isolation (o : Oracles) (lines : List Str) (i : Nat)
    (line u : Str)
    (hline : lines[i]? = some line)
    (hu : (parse_line line).repoUrl = some u) (hune : u ≠ [])
    (hprobe : o.probe u = none ∨ o.probe u = some []) :
    (sync_repositories o lines).manifestOut[i]? = some line ∧
    (sync_repositories o lines).entries =
      (sync_repositories o (lines.eraseIdx i)).entries ∧
    (sync_repositories o lines).events =
      (sync_repositories o (lines.eraseIdx i)).events ∧
    (sync_repositories o lines).syncedPaths =
      (sync_repositories o (lines.eraseIdx i)).syncedPaths ∧
    (sync_repositories o lines).manifestOut.eraseIdx i =
      (sync_repositories o (lines.eraseIdx i)).manifestOut := by
  have hnone : parseEntry o.probe line = none :=
    parseEntry_none_of_probe hu hune hprobe
  have hent : lines.filterMap (parseEntry o.probe) =
      (lines.eraseIdx i).filterMap (parseEntry o.probe) :=
    filterMap_eraseIdx_none _ lines i line hline hnone
  have hupd_none : buildUpdated (lines.filterMap (parseEntry o.probe)) u = none := by
    cases hb : buildUpdated (lines.filterMap (parseEntry o.probe)) u with
    | none => rfl
    | some v =>
      exfalso
      obtain ⟨e, hmem, hns, hurl, hv⟩ := buildUpdated_mem hb
      obtain ⟨line1, hline1, hpe⟩ := List.mem_filterMap.mp hmem
      have hfacts := parseEntry_elim hpe
      have hpf : o.probe u = some e.latestHash := by
        rw [← hurl]
        exact hfacts.2.2.1
      rcases hprobe with hp | hp
      · rw [hp] at hpf
        cases hpf
      · rw [hp] at hpf
        injection hpf with hpf
        exact hfacts.2.2.2.1 hpf.symm
  refine ⟨?_, ?_, ?_, ?_, ?_⟩
  · rw [sync_manifestOut_eq, List.getElem?_map, hline, Option.map_some',
      rewriteLine_verbatim hu hupd_none]
  · rw [sync_entries_eq, sync_entries_eq, hent]
  · rw [sync_events_eq, sync_events_eq, hent]
  · rw [sync_syncedPaths_eq, sync_syncedPaths_eq, hent]
  · rw [sync_manifestOut_eq, sync_manifestOut_eq, hent, eraseIdx_map]

/-- Oracles for the C3 witness: probing `good` yields `g1`, probing `bad`
fails. -/
def c3Oracles : Oracles :=
  ⟨fun u => if u = strOf "good" then some (strOf "g1") else none,
    id, fun _ => false, fun _ => false, fun _ => true, fun _ _ => true, id⟩

/-- The C3 manifest: a failing entry followed by a stale entry. -/
def c3Lines : List Str := [strOf "bad,hash=x\n", strOf "good,hash=old\n"]

theorem c3_probe_failure_isolation_witness :
    (c3Oracles.probe (strOf "bad") = none ∨
      c3Oracles.probe (strOf "bad") = some []) ∧
    (sync_repositories c3Oracles c3Lines).manifestOut[0]? =
      some (strOf "bad,hash=x\n") ∧
    (sync_repositories c3Oracles c3Lines).entries =
      (sync_repositories c3Oracles (c3Lines.eraseIdx 0)).entries ∧
    (sync_repositories c3Oracles c3Lines).events =
      (sync_repositories c3Oracles (c3Lines.eraseIdx 0)).events ∧
    (sync_repositories c3Oracles c3Lines).syncedPaths =
      (sync_repositories c3Oracles (c3Lines.eraseIdx 0)).syncedPaths ∧
    (sync_repositories c3Oracles c3Lines).manifestOut.eraseIdx 0 =
      (sync_repositories c3Oracles (c3Lines.eraseIdx 0)).manifestOut :=
  ⟨by decide,
    c3_probe_failure_isolation c3Oracles c3Lines 0
      (strOf "bad,hash=x\n") (strOf "bad")
      (by decide) (by decide) (by decide) (by decide)⟩

/-! ### Claim C4 -/

/-- C4: with deterministic probes returning well-formed revision tokens,
running the tool twice in succession rewrites the manifest identically on
the second run and overwrites the synced-paths file with empty content.
The second run's input is the first run's rewritten manifest; the line
hypothesis records that the manifest consists of newline-terminated
single lines, and the materialization hypotheses that every clone and
copy of the first run succeeds. -/
theorem c4_idempotence (o : Oracles) (lines : List Str)
    (hlines : ∀ l ∈ lines, ∃ core, l = core ++ ['\n'] ∧ '\n' ∉ core)
    (hprobe : ∀ u h, o.probe u = some h → tokenOk h)
    (hclone : ∀ u, o.cloneOk u = true)
    (hcopy : ∀ s t, o.copyOk s t = true) :
    (sync_repositories o (sync_repositories o lines).manifestOut).manifestOut =
      (sync_repositories o lines).manifestOut ∧
    (sync_repositories o (sync_repositories o lines).manifestOut).syncedPaths = [] := by
  have hout : (sync_repositories o lines).manifestOut =
      lines.map (rewriteLine (buildUpdated (lines.filterMap (parseEntry o.probe)))) :=
    sync_manifestOut_eq o lines
  have hmain : ∀ e2 ∈ ((sync_repositories o lines).manifestOut).filterMap
      (parseEntry o.probe), e2.needsSync = false := by
    intro e2 hmem
    rw [hout] at hmem
    obtain ⟨line2, hline2mem, hpe2⟩ := List.mem_filterMap.mp hmem
    obtain ⟨line, hlinemem, hlineeq⟩ := List.mem_map.mp hline2mem
    rcases rewriteLine_cases (buildUpdated (lines.filterMap (parseEntry o.probe)))
      line with ⟨hsame, hvac⟩ | ⟨u, v, hpu, hune, hupdu, hcanon⟩
    · -- the first run wrote the line back verbatim
      rw [hsame] at hlineeq
      subst hlineeq
      cases hb : e2.needsSync with
      | false => rfl
      | true =>
        exfalso
        have hmem1 : e2 ∈ lines.filterMap (parseEntry o.probe) :=
          List.mem_filterMap.mpr ⟨line, hlinemem, hpe2⟩
        have hfacts := parseEntry_elim hpe2
        exact buildUpdated_isSome hmem1 hb (hvac e2.repoUrl hfacts.1 hfacts.2.1)
    · -- the first run wrote the canonical line
      have hline2 : line2 = canonicalLine u v.1 v.2 := by
        rw [← hlineeq, hcanon]
      have hu_strip := parse_repoUrl_strip hpu
      have hu_head := parse_repoUrl_head hpu hune
      have hu_comma := parse_repoUrl_not_comma hpu
      obtain ⟨e1, hmem1, hns1, hurl1, hv1⟩ := buildUpdated_mem hupdu
      obtain ⟨line1, hline1mem, hpe1⟩ := List.mem_filterMap.mp hmem1
      have hf1 := parseEntry_elim hpe1
      have hprobeu : o.probe u = some e1.latestHash := by
        rw [← hurl1]
        exact hf1.2.2.1
      have htok : tokenOk e1.latestHash := hprobe u _ hprobeu
      have hlh_ne : e1.latestHash ≠ [] := hf1.2.2.2.1
      obtain ⟨tp1, htp1⟩ := parse_targetPath_isSome hf1.1
      have htp_e : e1.targetPath = tp1 := by
        rw [hf1.2.2.2.2.2.1, htp1]
        rfl
      have htpc : ',' ∉ e1.targetPath := by
        rw [htp_e]
        exact parse_targetPath_not_comma hf1.1 htp1
      subst hv1
      have hline2c : line2 = canonicalLine u e1.targetPath e1.latestHash := hline2
      have hpc := parse_canonical hu_strip hune hu_head hu_comma htpc htok hlh_ne
      rw [hline2c] at hpe2
      have hfacts2 := parseEntry_elim hpe2
      have hu2 : e2.repoUrl = u := by
        have hq := hfacts2.1
        rw [hpc.1] at hq
        injection hq with hv
        exact hv.symm
      have hlh2 : e2.latestHash = e1.latestHash := by
        have hpe2probe := hfacts2.2.2.1
        rw [hu2] at hpe2probe
        rw [hprobeu] at hpe2probe
        injection hpe2probe with hv
        exact hv.symm
      have hns_eq := hfacts2.2.2.2.2.2.2.2.2
      rw [hpc.2] at hns_eq
      rw [hns_eq, hlh2, oTruthy_some_of_ne hlh_ne]
      simp
  have hupd2 : ∀ u, buildUpdated
      (((sync_repositories o lines).manifestOut).filterMap (parseEntry o.probe)) u =
      none := buildUpdated_none_of_no_sync hmain
  constructor
  · have hrw : ∀ line2, rewriteLine (buildUpdated
        (((sync_repositories o lines).manifestOut).filterMap (parseEntry o.probe)))
        line2 = line2 := by
      intro line2
      rcases rewriteLine_cases (buildUpdated
        (((sync_repositories o lines).manifestOut).filterMap (parseEntry o.probe)))
        line2 with ⟨hsame, _⟩ | ⟨u, v, _, _, hupdu, _⟩
      · exact hsame
      · rw [hupd2 u] at hupdu
        cases hupdu
    rw [sync_manifestOut_eq]
    rw [List.map_congr_left (fun a _ => hrw a)]
    exact List.map_id _
  · rw [sync_syncedPaths_eq]
    rw [pass2_no_sync hmain]

/-- Oracles for the C4 witness: every probe yields the token `h1`, clone
and copy always succeed. -/
def c4Oracles : Oracles :=
  ⟨fun _ => some (strOf "h1"), id, fun _ => false, fun _ => false,
    fun _ => true, fun _ _ => true, id⟩

/-- The C4 manifest: a comment, a blank line and one stale entry. -/
def c4Lines : List Str :=
  [strOf "# note\n", strOf "\n", strOf "r1,sub/dir,hash=old\n"]

instance instDecidableTokenOk (h : Str) : Decidable (tokenOk h) :=
  inferInstanceAs (Decidable (∀ c ∈ h, isSpace c = false ∧ c ≠ ',' ∧ c ≠ ';'))

theorem c4Lines_shape : ∀ l ∈ c4Lines, ∃ core, l = core ++ ['\n'] ∧ '\n' ∉ core := by
  intro l hl
  simp only [c4Lines, List.mem_cons, List.not_mem_nil, or_false] at hl
  rcases hl with h | h | h
  · exact ⟨strOf "# note", by rw [h]; decide, by decide⟩
  · exact ⟨strOf "", by rw [h]; decide, by decide⟩
  · exact ⟨strOf "r1,sub/dir,hash=old", by rw [h]; decide, by decide⟩

theorem c4Oracles_tokens : ∀ u h, c4Oracles.probe u = some h → tokenOk h := by
  intro u h hh
  have hv : strOf "h1" = h := by injection hh
  rw [← hv]
  decide

theorem c4_idempotence_witness :
    (∀ u h, c4Oracles.probe u = some h → tokenOk h) ∧
    (sync_repositories c4Oracles
        (sync_repositories c4Oracles c4Lines).manifestOut).manifestOut =
      (sync_repositories c4Oracles c4Lines).manifestOut ∧
    (sync_repositories c4Oracles
        (sync_repositories c4Oracles c4Lines).manifestOut).syncedPaths = [] :=
  ⟨c4Oracles_tokens,
    (c4_idempotence c4Oracles c4Lines c4Lines_shape c4Oracles_tokens
      (fun _ => rfl) (fun _ _ => rfl)).1,
    (c4_idempotence c4Oracles c4Lines c4Lines_shape c4Oracles_tokens
      (fun _ => rfl) (fun _ _ => rfl)).2⟩

end SyncPackages
